import Mathlib

/-!
Shallow embedding of the text-similarity matching and scoring engine of the
ITMO_Rec_bot repository, together with theorems settling the frozen claims.

The embedding covers:
* `QAProcessor._preprocess_text` and its helpers (src/src/nlp/qa_processor.py),
  at the level of lists of characters;
* `CourseRecommender.calculate_course_score`, `recommend_courses` and
  `get_general_recommendations` (src/src/nlp/course_recommender.py), with
  scores as exact rationals;
* the TF-IDF similarity pipeline of `QAProcessor` (`find_similar_question`,
  `get_answer`, `get_related_questions`), with similarities as real numbers.

Modelling conventions, stated once here:
* Python float arithmetic is modelled by exact arithmetic (ℚ for the
  recommender, ℝ for cosine similarities).
* Python dicts appearing as records (courses, QA pairs) are modelled as
  structures whose fields correspond to the keys the code reads; `dict.get`
  with a default is modelled by a total field (or an `Option` field where the
  code compares against `None` or relies on key absence).
* The NLTK Snowball stemmer and the NLTK Russian stop-word list are external
  data, not code of this repository: the preprocessing pipeline is
  parameterised by a `stem` function and a `stop` list, and theorems either
  quantify over them or instantiate them with concrete finite restrictions of
  the real components.
* `numpy.argsort` is modelled as a stable ascending sort.  For the array
  sizes reached in the counterexamples (length 2) numpy runs plain insertion
  sort, which is stable, so the model agrees with numpy there.
* `str.lower`, the regex class `\w` and NLTK tokenisation are modelled over
  the ASCII and Cyrillic alphabets, the alphabets the corpus uses.
-/

namespace ITMORec

/-! ## Character-level text model -/

/-- Case-folding table: the restriction of Python `str.lower` to ASCII and
the Russian alphabet. -/
def upperLowerTable : List (Char × Char) :=
  [('A', 'a'), ('B', 'b'), ('C', 'c'), ('D', 'd'), ('E', 'e'), ('F', 'f'),
   ('G', 'g'), ('H', 'h'), ('I', 'i'), ('J', 'j'), ('K', 'k'), ('L', 'l'),
   ('M', 'm'), ('N', 'n'), ('O', 'o'), ('P', 'p'), ('Q', 'q'), ('R', 'r'),
   ('S', 's'), ('T', 't'), ('U', 'u'), ('V', 'v'), ('W', 'w'), ('X', 'x'),
   ('Y', 'y'), ('Z', 'z'),
   ('А', 'а'), ('Б', 'б'), ('В', 'в'), ('Г', 'г'), ('Д', 'д'), ('Е', 'е'),
   ('Ж', 'ж'), ('З', 'з'), ('И', 'и'), ('Й', 'й'), ('К', 'к'), ('Л', 'л'),
   ('М', 'м'), ('Н', 'н'), ('О', 'о'), ('П', 'п'), ('Р', 'р'), ('С', 'с'),
   ('Т', 'т'), ('У', 'у'), ('Ф', 'ф'), ('Х', 'х'), ('Ц', 'ц'), ('Ч', 'ч'),
   ('Ш', 'ш'), ('Щ', 'щ'), ('Ъ', 'ъ'), ('Ы', 'ы'), ('Ь', 'ь'), ('Э', 'э'),
   ('Ю', 'ю'), ('Я', 'я'), ('Ё', 'ё')]

/-- One character of Python `str.lower`. -/
def toLowerM (c : Char) : Char := (upperLowerTable.lookup c).getD c

/-- Python `str.lower` on a list of characters. -/
def lowerChars (cs : List Char) : List Char := cs.map toLowerM

/-- Python `str.lower` on a string. -/
def lowerStr (s : String) : String := String.mk (lowerChars s.toList)

/-- The regex class `\w` (with `re.UNICODE`), restricted to ASCII
alphanumerics, the underscore and the Cyrillic block. -/
def isWordChar (c : Char) : Bool :=
  c.isAlphanum || c = '_' || (0x400 ≤ c.toNat && c.toNat ≤ 0x4FF)

/-- The regex class `\s`: Python whitespace characters. -/
def isSpaceChar (c : Char) : Bool :=
  c = ' ' || c = '\t' || c = '\n' || c = '\r' || c = '\x0b' || c = '\x0c'

/-- `re.sub(r'[^\w\s]', ' ', text)`: each character that is neither a word
character nor whitespace becomes a space. -/
def subNonWordToSpace (cs : List Char) : List Char :=
  cs.map fun c => if isWordChar c || isSpaceChar c then c else ' '

/-- Helper for `collapseWhitespace`; the flag records whether the previous
character was whitespace (whose run has already emitted its single space). -/
def collapseWSGo : Bool → List Char → List Char
  | _, [] => []
  | prev, c :: cs =>
    if isSpaceChar c then
      if prev then collapseWSGo true cs else ' ' :: collapseWSGo true cs
    else c :: collapseWSGo false cs

/-- `re.sub(r'\s+', ' ', text)`: every maximal whitespace run becomes one
space. -/
def collapseWhitespace (cs : List Char) : List Char := collapseWSGo false cs

/-- Python `str.strip()`: drop leading and trailing whitespace. -/
def stripChars (cs : List Char) : List Char :=
  ((cs.dropWhile isSpaceChar).reverse.dropWhile isSpaceChar).reverse

/-- Helper for `splitBy`: `acc` is the current in-progress chunk, reversed. -/
def splitByGo (sep : Char → Bool) : List Char → List Char → List (List Char)
  | acc, [] => if acc.isEmpty then [] else [acc.reverse]
  | acc, c :: cs =>
    if sep c then
      if acc.isEmpty then splitByGo sep [] cs
      else acc.reverse :: splitByGo sep [] cs
    else splitByGo sep (c :: acc) cs

/-- Split on a separator class, dropping empty chunks (the semantics of
Python `str.split()` with no argument, and of regex-based tokenisers). -/
def splitBy (sep : Char → Bool) (cs : List Char) : List (List Char) :=
  splitByGo sep [] cs

/-- Whitespace tokenisation.  `word_tokenize` on text that `_preprocess_text`
has already reduced to word characters and single spaces coincides with
whitespace splitting, which is also the code's declared fallback
(`text.split()`). -/
def splitWS (cs : List Char) : List (List Char) := splitBy isSpaceChar cs

/-! ## `QAProcessor._preprocess_text` (src/src/nlp/qa_processor.py:69-101) -/

/-- The `additional_stops` set added in `QAProcessor._init_nltk`. -/
def additional_stops : List String :=
  ["это", "быть", "мочь", "весь", "свой", "который", "такой",
   "только", "один", "время", "год", "человек", "сказать"]

/-- The token list built by the loop of `_preprocess_text`: lowercase, strip
non-word characters to spaces, collapse whitespace, strip, tokenise, drop
tokens that are stop-words or of length at most 2, and stem the survivors.
`stem` is the Snowball stemmer (or the identity when NLTK initialisation
failed and `self.stemmer` is `None`); `stop` is `self.stop_words`. -/
def preprocessTokens (stem : String → String) (stop : List String)
    (text : String) : List String :=
  let lowered := lowerChars text.toList
  let cleaned := subNonWordToSpace lowered
  let collapsed := collapseWhitespace cleaned
  let stripped := stripChars collapsed
  let tokens := (splitWS stripped).map String.mk
  (tokens.filter fun t => !stop.contains t && 2 < t.length).map stem

/-- `" ".join(tokens)` at the character level. -/
def joinWithSpace : List (List Char) → List Char
  | [] => []
  | [t] => t
  | t :: ts => t ++ ' ' :: joinWithSpace ts

/-- `" ".join(tokens)` on strings. -/
def joinTokens (ts : List String) : String :=
  String.mk (joinWithSpace (ts.map String.toList))

/-- `QAProcessor._preprocess_text`: the space-joined processed tokens. -/
def _preprocess_text (stem : String → String) (stop : List String)
    (text : String) : String :=
  joinTokens (preprocessTokens stem stop text)

/-! ## `CourseRecommender` data (src/src/nlp/course_recommender.py:19-82) -/

/-- `self.interest_keywords`. -/
def interest_keywords : List (String × List String) :=
  [("machine_learning",
    ["машинное обучение", "machine learning", "ml", "алгоритмы машинного обучения",
     "классификация", "регрессия", "кластеризация", "обучение с учителем",
     "обучение без учителя", "supervised learning", "unsupervised learning"]),
   ("deep_learning",
    ["глубокое обучение", "deep learning", "нейронные сети", "neural networks",
     "cnn", "rnn", "lstm", "transformer", "свёрточные сети", "рекуррентные сети"]),
   ("computer_vision",
    ["компьютерное зрение", "computer vision", "cv", "обработка изображений",
     "распознавание образов", "image processing", "opencv", "детекция объектов"]),
   ("nlp",
    ["обработка естественного языка", "natural language processing", "nlp",
     "анализ текста", "text mining", "sentiment analysis", "чат-боты", "bert"]),
   ("data_science",
    ["data science", "анализ данных", "большие данные", "big data",
     "статистика", "analytics", "pandas", "numpy", "визуализация данных"]),
   ("python",
    ["python", "программирование на python", "django", "flask", "fastapi",
     "pandas", "numpy", "scikit-learn", "pytorch", "tensorflow"]),
   ("research",
    ["исследования", "research", "научная работа", "публикации", "статьи",
     "эксперименты", "analysis", "методология"]),
   ("product",
    ["продукт", "product", "продакт-менеджмент", "product management",
     "бизнес", "стартап", "коммерциализация", "метрики", "a/b тестирование"]),
   ("robotics",
    ["робототехника", "robotics", "роботы", "автоматизация", "sensors",
     "управление", "киберфизические системы"]),
   ("math",
    ["математика", "mathematics", "статистика", "probability", "вероятность",
     "линейная алгебра", "linear algebra", "оптимизация", "optimization"])]

/-- `self.program_priorities`. -/
def program_priorities : List (String × List (String × ℚ)) :=
  [("AI",
    [("machine_learning", 1.0), ("deep_learning", 1.0), ("research", 0.9),
     ("math", 0.8), ("python", 0.7), ("computer_vision", 0.8), ("nlp", 0.8)]),
   ("AI_Product",
    [("product", 1.0), ("machine_learning", 0.9), ("data_science", 0.9),
     ("python", 0.8), ("deep_learning", 0.7), ("research", 0.6)])]

/-- The `interest_to_tags_mapping` local dictionary of
`calculate_course_score` (lines 124-135). -/
def interest_to_tags_mapping : List (String × List String) :=
  [("computer_vision", ["Computer Vision", "CV", "Vision"]),
   ("machine_learning", ["Machine Learning", "ML"]),
   ("deep_learning", ["Deep Learning", "Neural Networks"]),
   ("nlp", ["NLP", "Natural Language Processing"]),
   ("data_science", ["Data Science", "Analytics", "Statistics", "Math"]),
   ("python", ["Python", "Programming"]),
   ("research", ["Research", "Analysis"]),
   ("algorithms", ["Algorithms", "Programming"]),
   ("math", ["Math", "Statistics"]),
   ("web_development", ["Web Development", "Programming"])]

/-- The `cv_keywords` local list of `calculate_course_score` (line 160). -/
def cv_keywords : List String :=
  ["изображен", "vision", "зрение", "обработка изображений", "генерация изображений"]

/-! ## String helpers used by the recommender -/

/-- Does the second list start with the first? -/
def startsWithSeq : List Char → List Char → Bool
  | [], _ => true
  | _ :: _, [] => false
  | a :: as, b :: bs => a = b && startsWithSeq as bs

/-- Is `needle` a contiguous subsequence of the second list?  This is the
Python `in` test on strings (an empty needle always matches). -/
def substrIn (needle : List Char) : List Char → Bool
  | [] => startsWithSeq needle []
  | c :: rest => startsWithSeq needle (c :: rest) || substrIn needle rest

/-- Python `needle in hay` on strings. -/
def strContains (hay needle : String) : Bool := substrIn needle.toList hay.toList

/-- Python `str.title()` (restricted to the modelled alphabets): the first
letter of each alphanumeric run is upper-cased; other letters are
lower-cased.  Only used as the `interest_to_tags_mapping` fallback. -/
def lowerUpperTable : List (Char × Char) := upperLowerTable.map fun p => (p.2, p.1)

def toUpperM (c : Char) : Char := (lowerUpperTable.lookup c).getD c

def isCasedChar (c : Char) : Bool :=
  (upperLowerTable.lookup c).isSome || (lowerUpperTable.lookup c).isSome || c.isDigit

def titleGo : Bool → List Char → List Char
  | _, [] => []
  | prevCased, c :: cs =>
    (if prevCased then toLowerM c else toUpperM c) :: titleGo (isCasedChar c) cs

def titleStr (s : String) : String := String.mk (titleGo false s.toList)

/-- Python truthiness of an optional string (`if preferred_program:`):
`None` and the empty string are falsy. -/
def isTruthy : Option String → Bool
  | none => false
  | some s => s ≠ ""

/-! ## Course records -/

/-- A course record as read by the recommender.  Fields are the dictionary
keys the code accesses; `program` is `Option` because the code compares
`course.get('program')` (which may be absent, i.e. `None`) with the
preferred program. -/
structure Course where
  id : Nat
  name : String
  description : String
  tags : List String
  is_mandatory : Bool
  program : Option String
  program_name : String
  credits : Nat
  semester : String
deriving DecidableEq, Repr

/-! ## `CourseRecommender.calculate_course_score` (lines 105-191) -/

/-- The `possible_tags` lookup (line 142). -/
def possibleTags (interest : String) : List String :=
  (interest_to_tags_mapping.lookup interest).getD [titleStr interest]

/-- Keyword hits of one interest against the lowercased course name
(lines 145-149). -/
def nameKeywordHits (course_name : String) (interest : String) : List String :=
  ((interest_keywords.lookup interest).getD []).filter fun kw =>
    strContains course_name kw

/-- Tag matches of one interest: one entry per `(tag, possible_tag)` pair
whose lowercased forms contain one another (lines 151-156).  The recorded
element is the course tag, as in the reason string. -/
def tagMatchHits (course_tags : List String) (interest : String) : List String :=
  course_tags.flatMap fun tag =>
    ((possibleTags interest).filter fun pt =>
      strContains (lowerStr tag) (lowerStr pt) ||
      strContains (lowerStr pt) (lowerStr tag)).map fun _ => tag

/-- Extra `computer_vision` keyword hits against the course name
(lines 158-164). -/
def cvHits (course_name : String) (interest : String) : List String :=
  if interest = "computer_vision" then
    cv_keywords.filter fun kw => strContains course_name kw
  else []

/-- `program_weight` (lines 166-169): 1.0 unless a truthy preferred program
is a key of `program_priorities`, in which case the interest's priority
with default 0.7. -/
def programWeight (preferred_program : Option String) (interest : String) : ℚ :=
  if isTruthy preferred_program ∧
      (program_priorities.lookup (preferred_program.getD "")).isSome then
    (((program_priorities.lookup (preferred_program.getD "")).getD []).lookup
      interest).getD 0.7
  else 1.0

/-- The accumulated `interest_score` of one loop iteration (before the
cap and weighting): 0.5 per name keyword hit, 0.7 per tag match, 0.8 per
extra `computer_vision` hit. -/
def interestScore (course : Course) (interest : String) : ℚ :=
  let course_name := lowerStr course.name
  0.5 * (nameKeywordHits course_name interest).length
    + 0.7 * (tagMatchHits course.tags interest).length
    + 0.8 * (cvHits course_name interest).length

/-- The reasons recorded by one loop iteration, in code order: name keyword
matches, tag matches, `computer_vision` keyword matches. -/
def interestReasons (course : Course) (interest : String) : List String :=
  let course_name := lowerStr course.name
  ((nameKeywordHits course_name interest).map fun kw =>
      "Совпадение \x27" ++ kw ++ "\x27 в названии курса")
    ++ ((tagMatchHits course.tags interest).map fun tag =>
      "Совпадение по тегу \x27" ++ tag ++ "\x27")
    ++ ((cvHits course_name interest).map fun kw =>
      "CV ключевое слово \x27" ++ kw ++ "\x27")

/-- The contribution of one `(interest, user_score)` pair to `base_score`
(lines 171-173): added only when `interest_score > 0`, capped at 1.0 and
weighted by the user score and the program weight. -/
def interestContribution (course : Course) (preferred_program : Option String)
    (interest : String) (user_score : ℚ) : ℚ :=
  if 0 < interestScore course interest then
    min (interestScore course interest) 1.0 * user_score *
      programWeight preferred_program interest
  else 0

/-- `base_score` after the interest loop (lines 137-173). -/
def interestBase (course : Course) (user_interests : List (String × ℚ))
    (preferred_program : Option String) : ℚ :=
  (user_interests.map fun p =>
    interestContribution course preferred_program p.1 p.2).sum

/-- All reasons recorded by the interest loop, in iteration order. -/
def interestLoopReasons (course : Course)
    (user_interests : List (String × ℚ)) : List String :=
  user_interests.flatMap fun p => interestReasons course p.1

/-- `base_score` after the mandatory-course bonus (lines 175-178). -/
def baseAfterMandatory (course : Course) (user_interests : List (String × ℚ))
    (preferred_program : Option String) : ℚ :=
  let b := interestBase course user_interests preferred_program
  if b = 0 ∧ course.is_mandatory then b + 0.2 else b

/-- `base_score` after the preferred-program bonus (lines 180-184). -/
def baseAfterPreferred (course : Course) (user_interests : List (String × ℚ))
    (preferred_program : Option String) : ℚ :=
  let b := baseAfterMandatory course user_interests preferred_program
  if isTruthy preferred_program ∧ course.program = preferred_program ∧ 0 < b then
    b + 0.2
  else b

/-- The full reason list, in code order. -/
def allReasons (course : Course) (user_interests : List (String × ℚ))
    (preferred_program : Option String) : List String :=
  interestLoopReasons course user_interests
    ++ (if interestBase course user_interests preferred_program = 0 ∧
          course.is_mandatory then ["Обязательный курс программы"] else [])
    ++ (if isTruthy preferred_program ∧ course.program = preferred_program ∧
          0 < baseAfterMandatory course user_interests preferred_program then
          ["Курс из предпочитаемой программы"] else [])

/-- `CourseRecommender.calculate_course_score` (lines 105-191).  Returns the
final score `min(base_score, 1.0)` and the reason text (first three reasons
joined by `"; "`, or the default).  The combined `course_text` of line 121
is built exactly as in the source and, like there, never consulted
afterwards. -/
def calculate_course_score (course : Course)
    (user_interests : List (String × ℚ))
    (preferred_program : Option String := none) : ℚ × String :=
  if user_interests.isEmpty then
    (0.0, "Нет информации об интересах пользователя")
  else
    let course_name := lowerStr course.name
    let course_description := lowerStr course.description
    let course_text :=
      lowerStr (course_name ++ " " ++ course_description ++ " "
        ++ String.intercalate " " course.tags)
    let final_score :=
      min (baseAfterPreferred course user_interests preferred_program) 1.0
    let reasons := allReasons course user_interests preferred_program
    let reason_text :=
      if reasons.isEmpty then "Общие рекомендации"
      else String.intercalate "; " (reasons.take 3)
    (final_score, reason_text)

/-! ## `CourseRecommender.recommend_courses` (lines 193-230) -/

/-- One entry of the recommendation list (the dictionary of lines 214-224). -/
structure Recommendation where
  course : Course
  score : ℚ
  reason : String
  course_id : Nat
  course_name : String
  program_name : String
  credits : Nat
  semester : String
  is_mandatory : Bool
deriving DecidableEq, Repr

/-- The candidate list built by the loop of lines 206-224, in catalog
order: every course whose score reaches `min_score`. -/
def recommendationCandidates (all_courses : List Course)
    (user_interests : List (String × ℚ)) (preferred_program : Option String)
    (min_score : ℚ) : List Recommendation :=
  all_courses.filterMap fun course =>
    let sr := calculate_course_score course user_interests preferred_program
    if min_score ≤ sr.1 then
      some ⟨course, sr.1, sr.2, course.id, course.name, course.program_name,
            course.credits, course.semester, course.is_mandatory⟩
    else none

/-- The sort relation of `recommendations.sort(key=lambda x: x['score'],
reverse=True)`: stable descending by score.  Python list sort is stable and
`reverse=True` keeps equal-key elements in their original order, which is
exactly insertion sort with this relation. -/
def recDescending (a b : Recommendation) : Prop := b.score ≤ a.score

instance : DecidableRel recDescending := fun a b =>
  inferInstanceAs (Decidable (b.score ≤ a.score))

instance : IsTotal Recommendation recDescending :=
  ⟨fun a b => le_total b.score a.score⟩

instance : IsTrans Recommendation recDescending :=
  ⟨fun _ _ _ h1 h2 => le_trans h2 h1⟩

/-- `CourseRecommender.recommend_courses` (lines 193-230), with the course
catalog (`self.db.get_all_courses()`) passed explicitly. -/
def recommend_courses (all_courses : List Course)
    (user_interests : List (String × ℚ)) (preferred_program : Option String)
    (top_k : Nat) (min_score : ℚ) : List Recommendation :=
  if all_courses.isEmpty then []
  else
    ((recommendationCandidates all_courses user_interests preferred_program
        min_score).insertionSort recDescending).take top_k

/-! ## `CourseRecommender.get_general_recommendations` (lines 249-280) -/

/-- The sort relation of line 264: ascending by the key
`(not is_mandatory, name)` — mandatory courses first, then alphabetical. -/
def generalOrder (a b : Course) : Prop :=
  (if a.is_mandatory then 0 else 1) < (if b.is_mandatory then 0 else 1) ∨
  ((if a.is_mandatory then (0 : Nat) else 1) =
    (if b.is_mandatory then 0 else 1) ∧ a.name ≤ b.name)

instance : DecidableRel generalOrder := fun a b => by
  unfold generalOrder; infer_instance

/-- `CourseRecommender.get_general_recommendations` (lines 249-280). -/
def get_general_recommendations (all_courses : List Course)
    (preferred_program : Option String) (top_k : Nat) : List Recommendation :=
  if all_courses.isEmpty then []
  else
    let filtered :=
      if isTruthy preferred_program then
        all_courses.filter fun c => c.program = preferred_program
      else all_courses
    ((filtered.insertionSort generalOrder).take top_k).map fun course =>
      ⟨course, 0.5, "Общая рекомендация программы", course.id, course.name,
       course.program_name, course.credits, course.semester,
       course.is_mandatory⟩

/-! ## `QAProcessor` similarity pipeline (src/src/nlp/qa_processor.py)

The vectorizer is `TfidfVectorizer(max_features=1000, ngram_range=(1, 2),
stop_words=None)` and similarities come from
`sklearn.metrics.pairwise.cosine_similarity`; both are modelled from their
documented formulas.  sklearn L2-normalises each TF-IDF row, which cancels
in the cosine similarity and is therefore omitted from `tfidfWeight`. -/

/-- config.py line 37. -/
noncomputable def SIMILARITY_THRESHOLD : ℝ := 0.7

/-- config.py line 38. -/
noncomputable def MIN_RELEVANCE_SCORE : ℝ := 0.5

/-- One QA record as read by the processor (the dictionary keys accessed by
`get_answer`; `category` is total here, modelling `get('category',
'general')` on records that all carry a category). -/
structure QAPair where
  question : String
  answer : String
  category : String
deriving DecidableEq, Inhabited, Repr

/-- The default sklearn analyzer: lowercase, then extract word-character
runs of length at least 2 (`token_pattern=r"(?u)\b\w\w+\b"`). -/
def sklearnTokens (cs : List Char) : List (List Char) :=
  (splitBy (fun c => !isWordChar c) (lowerChars cs)).filter fun t =>
    2 ≤ t.length

/-- Bigrams: adjacent token pairs joined by a single space (the sklearn
n-gram convention). -/
def bigramsOf : List (List Char) → List (List Char)
  | t₁ :: t₂ :: ts => (t₁ ++ ' ' :: t₂) :: bigramsOf (t₂ :: ts)
  | _ => []

/-- The terms of one document under `ngram_range=(1, 2)`: unigrams then
bigrams. -/
def docTerms (cs : List Char) : List (List Char) :=
  let toks := sklearnTokens cs
  toks ++ bigramsOf toks

/-- Total term count over the corpus (`max_features` selects by it). -/
def corpusCount (docs : List (List (List Char))) (t : List Char) : ℕ :=
  (docs.map fun d => d.count t).sum

/-- Lexicographic comparison of character lists; sklearn keeps its
vocabulary alphabetically sorted. -/
def lexLeB : List Char → List Char → Bool
  | [], _ => true
  | _ :: _, [] => false
  | a :: as, b :: bs =>
    if a.val < b.val then true else if a = b then lexLeB as bs else false

def lexLe (s t : List Char) : Prop := lexLeB s t = true

instance : DecidableRel lexLe := fun s t =>
  inferInstanceAs (Decidable (lexLeB s t = true))

/-- `max_features` of the repository's vectorizer. -/
def MAX_FEATURES : ℕ := 1000

/-- Stable by-count-descending relation for the `max_features` cap (ties
stay in the alphabetical order of the input list). -/
def countDesc (docs : List (List (List Char))) (s t : List Char) : Prop :=
  corpusCount docs t ≤ corpusCount docs s

instance (docs : List (List (List Char))) : DecidableRel (countDesc docs) :=
  fun s t => inferInstanceAs (Decidable (corpusCount docs t ≤ corpusCount docs s))

/-- The fitted vocabulary: the distinct corpus terms, alphabetical, capped
to the `MAX_FEATURES` most frequent ones. -/
def vocabulary (docs : List (List (List Char))) : List (List Char) :=
  let sorted := (docs.flatten.dedup).insertionSort lexLe
  if sorted.length ≤ MAX_FEATURES then sorted
  else ((sorted.insertionSort (countDesc docs)).take MAX_FEATURES)

/-- Document frequency of a term. -/
def docFreq (docs : List (List (List Char))) (t : List Char) : ℕ :=
  (docs.filter fun d => d.contains t).length

/-- Smoothed inverse document frequency (`smooth_idf=True`):
`ln((1 + n)/(1 + df)) + 1`. -/
noncomputable def idfVal (n df : ℕ) : ℝ :=
  Real.log ((1 + (n : ℝ)) / (1 + (df : ℝ))) + 1

/-- The TF-IDF weight of term `t` for a document `d`, given the fitted
corpus: raw count times fitted idf (L2 row normalisation omitted, see the
section header). -/
noncomputable def tfidfWeight (docs : List (List (List Char)))
    (d : List (List Char)) (t : List Char) : ℝ :=
  (d.count t : ℝ) * idfVal docs.length (docFreq docs t)

/-- Dot product over the fitted vocabulary; out-of-vocabulary terms of a
query contribute nothing, as in `transform`. -/
noncomputable def dotProd (vocab : List (List Char))
    (u v : List Char → ℝ) : ℝ :=
  (vocab.map fun t => u t * v t).sum

/-- Cosine similarity; for a zero vector sklearn clips the zero norm and
returns 0, which `x / 0 = 0` reproduces. -/
noncomputable def cosSim (vocab : List (List Char))
    (u v : List Char → ℝ) : ℝ :=
  dotProd vocab u v /
    (Real.sqrt (dotProd vocab u u) * Real.sqrt (dotProd vocab v v))

/-- `self.processed_questions` (`__init__`, line 37). -/
def processedQuestions (stem : String → String) (stop : List String)
    (pairs : List QAPair) : List String :=
  pairs.map fun qa => _preprocess_text stem stop qa.question

/-- The corpus documents the vectorizer is fitted on. -/
def corpusDocs (stem : String → String) (stop : List String)
    (pairs : List QAPair) : List (List (List Char)) :=
  (processedQuestions stem stop pairs).map fun s => docTerms s.toList

/-- `self.question_vectors is not None`: there is at least one processed
question (`__init__`, lines 39-43) and `fit_transform` succeeded
(`_fit_vectorizer` catches the sklearn "empty vocabulary" error — raised
exactly when no document contributes a term — and returns `None`). -/
def fitOk (stem : String → String) (stop : List String)
    (pairs : List QAPair) : Bool :=
  !(processedQuestions stem stop pairs).isEmpty &&
    !(vocabulary (corpusDocs stem stop pairs)).isEmpty

/-- The similarity row `cosine_similarity(user_vector,
self.question_vectors)[0]` (line 125). -/
noncomputable def similarities (stem : String → String) (stop : List String)
    (pairs : List QAPair) (q : String) : List ℝ :=
  let docs := corpusDocs stem stop pairs
  let vocab := vocabulary docs
  let qd := docTerms (_preprocess_text stem stop q).toList
  docs.map fun d => cosSim vocab (tfidfWeight docs qd) (tfidfWeight docs d)

/-- Helper for `np_argmax`: `i` is the index of the head of the remaining
list, `bi`/`bv` the best index and value so far. -/
noncomputable def argmaxAux : ℕ → ℕ → ℝ → List ℝ → ℕ
  | _, bi, _, [] => bi
  | i, bi, bv, x :: xs =>
    if bv < x then argmaxAux (i + 1) i x xs else argmaxAux (i + 1) bi bv xs

/-- `np.argmax`: index of the first maximal entry (0 on the empty list,
which the code never queries). -/
noncomputable def np_argmax : List ℝ → ℕ
  | [] => 0
  | x :: xs => argmaxAux 1 0 x xs

/-- `QAProcessor.find_similar_question` (lines 112-138).  The guard of
line 114 (`if not self.question_vectors is not None`) parses as
`question_vectors is None`; inside the `try` block the vectorizer is
always fitted, so the `except` branch is unreachable there and the
returned pair comes from the threshold comparison of lines 131-134. -/
noncomputable def find_similar_question (stem : String → String)
    (stop : List String) (pairs : List QAPair) (q : String) :
    Option QAPair × ℝ :=
  if fitOk stem stop pairs = false then (none, 0)
  else
    let sims := similarities stem stop pairs q
    let idx := np_argmax sims
    let best := sims.getD idx 0
    if MIN_RELEVANCE_SCORE ≤ best then (some (pairs.getD idx default), best)
    else (none, best)

/-- The structured answer of `get_answer`. -/
structure AnswerResult where
  answer : String
  confidence : ℝ
  matched_question : Option String
  category : String
  is_exact_match : Bool

/-- The fixed NO_MATCH response (lines 161-168). -/
noncomputable def noMatchResult : AnswerResult :=
  ⟨"К сожалению, я не могу найти ответ на ваш вопрос. Попробуйте переформулировать вопрос или обратитесь к администратору программы.",
   0, none, "unknown", false⟩

/-- `QAProcessor.get_answer` (lines 140-168). -/
noncomputable def get_answer (stem : String → String) (stop : List String)
    (pairs : List QAPair) (q : String) : AnswerResult :=
  match find_similar_question stem stop pairs q with
  | (some qa, similarity) =>
    if SIMILARITY_THRESHOLD ≤ similarity then
      ⟨qa.answer, similarity, some qa.question, qa.category,
        decide (0.9 < similarity)⟩
    else
      ⟨"Возможно, вы имели в виду: \x27" ++ qa.question ++ "\x27?\n\n"
        ++ qa.answer, similarity, some qa.question, qa.category, false⟩
  | (none, _) => noMatchResult

/-- Ascending stable argsort order on indices: by similarity value, ties
by index. -/
noncomputable def argsortLe (sims : List ℝ) (i j : ℕ) : Prop :=
  sims.getD i 0 < sims.getD j 0 ∨
    (sims.getD i 0 = sims.getD j 0 ∧ i ≤ j)

noncomputable instance (sims : List ℝ) : DecidableRel (argsortLe sims) :=
  fun i j => inferInstanceAs (Decidable (_ ∨ _))

/-- `np.argsort(similarities)` modelled as the stable ascending sort of
the index list (see the header note on numpy stability). -/
noncomputable def np_argsort (sims : List ℝ) : List ℕ :=
  (List.range sims.length).insertionSort (argsortLe sims)

instance (sims : List ℝ) : IsTotal ℕ (argsortLe sims) := ⟨by
  intro i j
  rcases lt_trichotomy (sims.getD i 0) (sims.getD j 0) with h | h | h
  · exact Or.inl (Or.inl h)
  · rcases le_total i j with hij | hij
    · exact Or.inl (Or.inr ⟨h, hij⟩)
    · exact Or.inr (Or.inr ⟨h.symm, hij⟩)
  · exact Or.inr (Or.inl h)⟩

instance (sims : List ℝ) : IsTrans ℕ (argsortLe sims) := ⟨by
  intro i j k hij hjk
  rcases hij with h1 | ⟨h1, h1'⟩ <;> rcases hjk with h2 | ⟨h2, h2'⟩
  · exact Or.inl (h1.trans h2)
  · exact Or.inl (lt_of_lt_of_le h1 (le_of_eq h2))
  · exact Or.inl (lt_of_le_of_lt (le_of_eq h1) h2)
  · exact Or.inr ⟨h1.trans h2, h1'.trans h2'⟩⟩

/-- `top_indices = np.argsort(similarities)[::-1][:top_k]` (line 182). -/
noncomputable def relatedIndices (stem : String → String)
    (stop : List String) (pairs : List QAPair) (q : String)
    (top_k : ℕ) : List ℕ :=
  ((np_argsort (similarities stem stop pairs q)).reverse).take top_k

/-- One entry of the `get_related_questions` result (lines 187-192). -/
structure RelatedQuestion where
  question : String
  answer : String
  similarity : ℝ
  category : String

/-- `QAProcessor.get_related_questions` (lines 170-198). -/
noncomputable def get_related_questions (stem : String → String)
    (stop : List String) (pairs : List QAPair) (q : String)
    (top_k : ℕ) : List RelatedQuestion :=
  if fitOk stem stop pairs = false then []
  else
    let sims := similarities stem stop pairs q
    ((relatedIndices stem stop pairs q top_k).filter fun i =>
        decide (MIN_RELEVANCE_SCORE ≤ sims.getD i 0)).map fun i =>
      ⟨(pairs.getD i default).question, (pairs.getD i default).answer,
        sims.getD i 0, (pairs.getD i default).category⟩

/-! ## Stability of the Python sorts

Python `list.sort` is stable, and `reverse=True` keeps equal-key elements in
their original order; `List.insertionSort` with the corresponding relation
has the same property, proved here as: filtering the sorted list by any one
key value gives the same list as filtering the input. -/

theorem filter_orderedInsert_pos {α : Type _} (r : α → α → Prop)
    [DecidableRel r] (p : α → Bool) (a : α) (ha : p a = true) :
    ∀ l : List α, (∀ b ∈ l, ¬ r a b → p b = false) →
      (l.orderedInsert r a).filter p = a :: l.filter p := by
  intro l
  induction l with
  | nil => intro _; simp [ha]
  | cons b t ih =>
    intro h
    by_cases hr : r a b
    · simp [List.orderedInsert, hr, ha]
    · have hb : p b = false := h b (by simp) hr
      simp only [List.orderedInsert, if_neg hr, List.filter_cons, hb,
        Bool.false_eq_true, if_false]
      rw [ih fun x hx hrx => h x (by simp [hx]) hrx]

theorem filter_orderedInsert_neg {α : Type _} (r : α → α → Prop)
    [DecidableRel r] (p : α → Bool) (a : α) (ha : p a = false) :
    ∀ l : List α, (l.orderedInsert r a).filter p = l.filter p := by
  intro l
  induction l with
  | nil => simp [ha]
  | cons b t ih =>
    by_cases hr : r a b
    · simp [List.orderedInsert, hr, ha]
    · simp only [List.orderedInsert, if_neg hr, List.filter_cons, ih]

theorem filter_insertionSort {α : Type _} (r : α → α → Prop) [DecidableRel r]
    (p : α → Bool) (hcomp : ∀ a b, p a = true → ¬ r a b → p b = false) :
    ∀ l : List α, (l.insertionSort r).filter p = l.filter p := by
  intro l
  induction l with
  | nil => rfl
  | cons x t ih =>
    by_cases hx : p x = true
    · rw [List.insertionSort,
        filter_orderedInsert_pos r p x hx _ fun b _ hb => hcomp x b hx hb,
        ih, List.filter_cons, if_pos hx]
    · have hx' : p x = false := Bool.eq_false_iff.mpr hx
      rw [List.insertionSort, filter_orderedInsert_neg r p x hx', ih,
        List.filter_cons, hx']
      simp

theorem filter_take_front {α : Type _} (p : α → Bool) (n : Nat) (l : List α) :
    (l.take n).filter p <+: l.filter p := by
  conv_rhs => rw [← List.take_append_drop n l]
  rw [List.filter_append]
  exact ⟨(l.drop n).filter p, rfl⟩

/-- `recommend_courses` always equals the truncated sort of the candidate
list (the empty-catalog early return coincides with it). -/
theorem recommend_courses_eq (all_courses : List Course)
    (user_interests : List (String × ℚ)) (preferred_program : Option String)
    (top_k : Nat) (min_score : ℚ) :
    recommend_courses all_courses user_interests preferred_program top_k
        min_score =
      ((recommendationCandidates all_courses user_interests preferred_program
          min_score).insertionSort recDescending).take top_k := by
  unfold recommend_courses
  split
  · next h =>
    rw [List.isEmpty_iff.mp h]
    simp [recommendationCandidates]
  · rfl

/-- Every candidate's score reaches `min_score`. -/
theorem candidates_score_ge (all_courses : List Course)
    (user_interests : List (String × ℚ)) (preferred_program : Option String)
    (min_score : ℚ) (r : Recommendation)
    (hr : r ∈ recommendationCandidates all_courses user_interests
      preferred_program min_score) : min_score ≤ r.score := by
  unfold recommendationCandidates at hr
  obtain ⟨course, -, hc⟩ := List.mem_filterMap.mp hr
  dsimp only at hc
  split at hc
  · next hcond =>
    obtain rfl := Option.some.inj hc
    exact hcond
  · cases hc

/-! ## Nonnegativity of the score components -/

theorem lookup_mem {α β : Type _} [BEq α] :
    ∀ (l : List (α × β)) (k : α) (v : β), l.lookup k = some v →
      ∃ a, (a, v) ∈ l := by
  intro l k v h
  induction l with
  | nil => cases h
  | cons p t ih =>
    obtain ⟨pk, pv⟩ := p
    rw [List.lookup] at h
    cases hb : k == pk with
    | true =>
      rw [hb] at h
      obtain rfl := Option.some.inj h
      exact ⟨pk, by simp⟩
    | false =>
      rw [hb] at h
      obtain ⟨a, ha⟩ := ih h
      exact ⟨a, by simp [ha]⟩

theorem programWeight_nonneg (pp : Option String) (i : String) :
    0 ≤ programWeight pp i := by
  unfold programWeight
  split
  · cases hx : List.lookup (pp.getD "") program_priorities with
    | none => norm_num [hx]
    | some table =>
      simp only [Option.getD_some]
      cases hy : List.lookup i table with
      | none => norm_num
      | some q =>
        simp only [Option.getD_some]
        obtain ⟨a, hmem⟩ := lookup_mem _ _ _ hx
        obtain ⟨b, hq⟩ := lookup_mem _ _ _ hy
        have hq2 : q ∈ table.map Prod.snd := List.mem_map.mpr ⟨(b, q), hq, rfl⟩
        simp only [program_priorities, List.mem_cons, List.mem_singleton,
          Prod.mk.injEq, List.not_mem_nil, or_false] at hmem
        rcases hmem with ⟨-, rfl⟩ | ⟨-, rfl⟩ <;>
          · simp only [List.map] at hq2
            fin_cases hq2 <;> norm_num
  · norm_num

theorem interestContribution_nonneg (course : Course) (pp : Option String)
    (i : String) (w : ℚ) (hw : 0 ≤ w) :
    0 ≤ interestContribution course pp i w := by
  unfold interestContribution
  split
  · next h =>
    have h1 : (0 : ℚ) ≤ min (interestScore course i) 1.0 :=
      le_min (le_of_lt h) (by norm_num)
    exact mul_nonneg (mul_nonneg h1 hw) (programWeight_nonneg pp i)
  · exact le_refl 0

theorem interestBase_nonneg (course : Course)
    (user_interests : List (String × ℚ)) (pp : Option String)
    (hw : ∀ p ∈ user_interests, (0 : ℚ) ≤ p.2) :
    0 ≤ interestBase course user_interests pp := by
  unfold interestBase
  apply List.sum_nonneg
  intro x hx
  obtain ⟨p, hp, rfl⟩ := List.mem_map.mp hx
  exact interestContribution_nonneg course pp p.1 p.2 (hw p hp)

theorem baseAfterPreferred_nonneg (course : Course)
    (user_interests : List (String × ℚ)) (pp : Option String)
    (hw : ∀ p ∈ user_interests, (0 : ℚ) ≤ p.2) :
    0 ≤ baseAfterPreferred course user_interests pp := by
  have h0 := interestBase_nonneg course user_interests pp hw
  simp only [baseAfterPreferred, baseAfterMandatory]
  split_ifs <;> linarith

/-- The final score lies in `[0, 1]` whenever all interest weights are
nonnegative. -/
theorem calculate_course_score_unit (course : Course)
    (user_interests : List (String × ℚ)) (pp : Option String)
    (hw : ∀ p ∈ user_interests, (0 : ℚ) ≤ p.2) :
    0 ≤ (calculate_course_score course user_interests pp).1 ∧
      (calculate_course_score course user_interests pp).1 ≤ 1 := by
  unfold calculate_course_score
  split
  · norm_num
  · dsimp only
    refine ⟨le_min (baseAfterPreferred_nonneg course user_interests pp hw)
      (by norm_num), ?_⟩
    have := min_le_right (baseAfterPreferred course user_interests pp) 1.0
    linarith

/-! ## Claim C3 -/

/-- C3: for every course catalog, interest mapping, preferred program,
`top_k` and `min_score`, `recommend_courses` returns at most `top_k` items,
every returned item's score is at least `min_score`, the result is sorted
descending by score, and equal-score items keep catalog input order (the
sort is stable): filtering the result by any one score value gives an
initial segment of the same filtering of the catalog-ordered candidate
list. -/
theorem recommend_courses_bounded_sorted_stable
    (all_courses : List Course) (user_interests : List (String × ℚ))
    (preferred_program : Option String) (top_k : Nat) (min_score : ℚ) :
    (recommend_courses all_courses user_interests preferred_program top_k
        min_score).length ≤ top_k ∧
    (∀ r ∈ recommend_courses all_courses user_interests preferred_program
        top_k min_score, min_score ≤ r.score) ∧
    List.Sorted recDescending
      (recommend_courses all_courses user_interests preferred_program top_k
        min_score) ∧
    ∀ s : ℚ,
      (recommend_courses all_courses user_interests preferred_program top_k
          min_score).filter (fun r => r.score == s) <+:
        (recommendationCandidates all_courses user_interests
          preferred_program min_score).filter fun r => r.score == s := by
  rw [recommend_courses_eq]
  refine ⟨?_, ?_, ?_, ?_⟩
  · simpa using Nat.min_le_left top_k _
  · intro r hr
    have hr2 : r ∈ (recommendationCandidates all_courses user_interests
        preferred_program min_score).insertionSort recDescending :=
      (List.take_sublist _ _).subset hr
    exact candidates_score_ge all_courses user_interests preferred_program
      min_score r ((List.mem_insertionSort recDescending).mp hr2)
  · exact List.Pairwise.sublist (List.take_sublist _ _)
      (List.sorted_insertionSort recDescending _)
  · intro s
    have hstable := filter_insertionSort recDescending
      (fun r : Recommendation => r.score == s)
      (fun a b ha hr => by
        have ha' : a.score = s := by simpa using ha
        have hlt : a.score < b.score := lt_of_not_le hr
        simp only [beq_eq_false_iff_ne, ne_eq]
        intro hb
        rw [hb, ha'] at hlt
        exact lt_irrefl s hlt)
      (recommendationCandidates all_courses user_interests preferred_program
        min_score)
    rw [← hstable]
    exact filter_take_front _ top_k _

/-- Witness for C3 at a concrete catalog. -/
theorem recommend_courses_bounded_sorted_stable_witness :
    (recommend_courses
        [⟨1, "Машинное обучение", "", ["Machine Learning"], false, some "AI",
          "AI", 3, "1"⟩]
        [("machine_learning", 1)] none 5 (1/10)).length ≤ 5 :=
  (recommend_courses_bounded_sorted_stable _ _ none 5 (1/10)).1

/-! ## Claim C4 -/

/-- C4 (counterexample): calling `recommend_courses` with an empty interest
mapping on a non-empty catalog returns the empty list, not items with the
flat 0.5 fallback score: with no interests every course scores 0.0, which
is below the default `min_score = 0.1`. -/
theorem recommend_courses_empty_interests_counterexample :
    recommend_courses [⟨1, "курс", "", [], true, some "AI", "AI", 3, "1"⟩]
      [] none 5 (1/10) = [] := by
  rw [recommend_courses_eq]
  have hc : recommendationCandidates
      [⟨1, "курс", "", [], true, some "AI", "AI", 3, "1"⟩] [] none (1/10)
      = [] := by
    unfold recommendationCandidates
    rw [List.filterMap_eq_nil_iff]
    intro course _
    have hc0 : calculate_course_score course [] none
        = (0.0, "Нет информации об интересах пользователя") := rfl
    simp only [hc0]
    norm_num
  rw [hc]
  simp

/-- C4 (amended): with an empty interest mapping `recommend_courses`
returns the empty list whenever `min_score` is positive, regardless of the
catalog; the items with flat score 0.5 and the general-recommendation
reason are produced by `get_general_recommendations` (which
`recommend_courses_from_text` falls back to when no interests are
extracted). -/
theorem recommend_courses_empty_interests_amended :
    (∀ (all_courses : List Course) (preferred_program : Option String)
      (top_k : Nat) (min_score : ℚ), 0 < min_score →
      recommend_courses all_courses [] preferred_program top_k min_score
        = []) ∧
    ∀ (all_courses : List Course) (preferred_program : Option String)
      (top_k : Nat) (r : Recommendation),
      r ∈ get_general_recommendations all_courses preferred_program top_k →
      r.score = 0.5 ∧ r.reason = "Общая рекомендация программы" := by
  constructor
  · intro all_courses pp top_k min_score hmin
    rw [recommend_courses_eq]
    have hc : recommendationCandidates all_courses [] pp min_score = [] := by
      unfold recommendationCandidates
      rw [List.filterMap_eq_nil_iff]
      intro course _
      have hc0 : calculate_course_score course [] pp
          = (0.0, "Нет информации об интересах пользователя") := rfl
      have hlt : ¬ min_score ≤ ((0.0, "Нет информации об интересах пользователя") :
          ℚ × String).1 := by
        norm_num
        exact hmin
      simp only [hc0, hlt, if_false]
    rw [hc]
    simp
  · intro all_courses pp top_k r hr
    unfold get_general_recommendations at hr
    split at hr
    · cases hr
    · obtain ⟨course, -, rfl⟩ := List.mem_map.mp hr
      exact ⟨rfl, rfl⟩

/-- Witness for the amended C4 at a concrete catalog. -/
theorem recommend_courses_empty_interests_amended_witness :
    recommend_courses [⟨1, "курс", "", [], true, some "AI", "AI", 3, "1"⟩]
      [] (some "AI") 3 (1/10) = [] :=
  recommend_courses_empty_interests_amended.1 _ (some "AI") 3 (1/10)
    (by norm_num)

/-! ## Claim C5 -/

/-- A mandatory course named `курс` with no tags has no content-based match
for the interest `robotics`: the interest loop contributes nothing. -/
theorem interestBase_robotics_kurs (pp : Option String) :
    interestBase ⟨1, "курс", "", [], true, some "AI", "AI", 3, "1"⟩
      [("robotics", 1)] pp = 0 := by
  have h1 : nameKeywordHits (lowerStr "курс") "robotics" = [] := rfl
  have h2 : tagMatchHits ([] : List String) "robotics" = [] := rfl
  have h3 : cvHits (lowerStr "курс") "robotics" = [] := rfl
  have hsc : interestScore
      ⟨1, "курс", "", [], true, some "AI", "AI", 3, "1"⟩ "robotics" = 0 := by
    simp [interestScore, h1, h2, h3]
  simp [interestBase, interestContribution, hsc]

/-- C5 (counterexample): a mandatory course with no content-based match at
all (`interestBase = 0`) scores 0.2 without a preferred program but 0.4
when its own program is preferred: the +0.2 preferred-program bonus IS
applied on top of the mandatory-course bonus, contradicting the claim that
it requires content-based relevance. -/
theorem preferred_bonus_mandatory_only_counterexample :
    (calculate_course_score
        ⟨1, "курс", "", [], true, some "AI", "AI", 3, "1"⟩
        [("robotics", 1)] (some "AI")).1 = 2/5 ∧
    (calculate_course_score
        ⟨1, "курс", "", [], true, some "AI", "AI", 3, "1"⟩
        [("robotics", 1)] none).1 = 1/5 := by
  have ht : isTruthy (some "AI") = true := rfl
  have hf : isTruthy none = false := rfl
  have hm : ∀ pp, baseAfterMandatory
      ⟨1, "курс", "", [], true, some "AI", "AI", 3, "1"⟩
      [("robotics", 1)] pp = 1/5 := by
    intro pp
    norm_num [baseAfterMandatory, interestBase_robotics_kurs]
  constructor
  · have hp : baseAfterPreferred
        ⟨1, "курс", "", [], true, some "AI", "AI", 3, "1"⟩
        [("robotics", 1)] (some "AI") = 2/5 := by
      norm_num [baseAfterPreferred, hm, ht]
    have hfin : min ((2 : ℚ)/5) 1.0 = 2/5 := min_eq_left (by norm_num)
    norm_num [calculate_course_score, hp, hfin]
  · have hp : baseAfterPreferred
        ⟨1, "курс", "", [], true, some "AI", "AI", 3, "1"⟩
        [("robotics", 1)] none = 1/5 := by
      norm_num [baseAfterPreferred, hm, hf]
    have hfin : min ((1 : ℚ)/5) 1.0 = 1/5 := min_eq_left (by norm_num)
    norm_num [calculate_course_score, hp, hfin]

/-- C5 (amended): the +0.2 preferred-program bonus is applied whenever the
pre-bonus score is positive, where the pre-bonus score includes the
mandatory-course bonus: a mandatory course with zero content-based score
and a matching preferred program receives both bonuses and scores exactly
0.4. -/
theorem preferred_bonus_applies_after_mandatory_bonus (course : Course)
    (user_interests : List (String × ℚ)) (p : String)
    (hne : user_interests ≠ [])
    (hbase : interestBase course user_interests (some p) = 0)
    (hmand : course.is_mandatory = true) (hp : p ≠ "")
    (hprog : course.program = some p) :
    (calculate_course_score course user_interests (some p)).1 = 2/5 := by
  have hm : baseAfterMandatory course user_interests (some p) = 1/5 := by
    unfold baseAfterMandatory
    rw [hbase]
    norm_num [hmand]
  have hpref : baseAfterPreferred course user_interests (some p) = 2/5 := by
    unfold baseAfterPreferred
    rw [hm]
    have : isTruthy (some p) = true := by simp [isTruthy, hp]
    norm_num [this, hprog]
  unfold calculate_course_score
  rw [if_neg (by simpa [List.isEmpty_iff] using hne)]
  dsimp only
  rw [hpref]
  norm_num

/-- Witness for the amended C5 at a concrete course. -/
theorem preferred_bonus_applies_after_mandatory_bonus_witness :
    (calculate_course_score
        ⟨1, "курс", "", [], true, some "AI", "AI", 3, "1"⟩
        [("robotics", 1)] (some "AI")).1 = 2/5 :=
  preferred_bonus_applies_after_mandatory_bonus _ _ "AI" (by simp)
    (interestBase_robotics_kurs (some "AI")) rfl (by decide) rfl

/-! ## Claim C10 -/

/-- C10: the course score ignores the course description: two course
records that differ only in their `description` field receive the same
`(score, reason)` pair for every interest mapping and preferred program.
The combined `course_text` that includes the description is built (line
121) but never consulted by any matching step. -/
theorem score_independent_of_description (c₁ c₂ : Course)
    (user_interests : List (String × ℚ)) (preferred_program : Option String)
    (hid : c₁.id = c₂.id) (hn : c₁.name = c₂.name) (ht : c₁.tags = c₂.tags)
    (hm : c₁.is_mandatory = c₂.is_mandatory) (hp : c₁.program = c₂.program)
    (hpn : c₁.program_name = c₂.program_name) (hc : c₁.credits = c₂.credits)
    (hs : c₁.semester = c₂.semester) :
    calculate_course_score c₁ user_interests preferred_program =
      calculate_course_score c₂ user_interests preferred_program := by
  obtain ⟨i₁, n₁, d₁, t₁, m₁, p₁, pn₁, cr₁, s₁⟩ := c₁
  obtain ⟨i₂, n₂, d₂, t₂, m₂, p₂, pn₂, cr₂, s₂⟩ := c₂
  dsimp only at hid hn ht hm hp hpn hc hs
  subst hid hn ht hm hp hpn hc hs
  rfl

/-- Witness for C10: two copies of a course with different descriptions. -/
theorem score_independent_of_description_witness :
    calculate_course_score
        ⟨1, "Машинное обучение", "первое описание", ["Machine Learning"],
          false, some "AI", "AI", 3, "1"⟩ [("machine_learning", 1)] none =
      calculate_course_score
        ⟨1, "Машинное обучение", "совсем другое описание",
          ["Machine Learning"], false, some "AI", "AI", 3, "1"⟩
        [("machine_learning", 1)] none :=
  score_independent_of_description _ _ [("machine_learning", 1)] none
    rfl rfl rfl rfl rfl rfl rfl rfl

/-! ## Claim C1 (recommender half): counterexample -/

/-- C1 (counterexample): over arbitrary user-interest mappings the score is
NOT always within `[0, 1]`: a negative interest weight drives the score
below zero (a tag match contributes `0.7 * (-1)` and the final
`min(base_score, 1.0)` only clips from above). -/
theorem score_unit_interval_counterexample :
    (calculate_course_score
        ⟨2, "курс", "", ["Machine Learning"], false, none, "AI", 3, "1"⟩
        [("machine_learning", -1)] none).1 < 0 := by
  have h1 : nameKeywordHits (lowerStr "курс") "machine_learning" = [] := rfl
  have h2 : tagMatchHits ["Machine Learning"] "machine_learning"
      = ["Machine Learning"] := rfl
  have h3 : cvHits (lowerStr "курс") "machine_learning" = [] := rfl
  have hpw : programWeight none "machine_learning" = 1.0 := rfl
  have hsc : interestScore
      ⟨2, "курс", "", ["Machine Learning"], false, none, "AI", 3, "1"⟩
      "machine_learning" = 7/10 := by
    norm_num [interestScore, h1, h2, h3]
  have hmin1 : min ((7 : ℚ)/10) 1.0 = 7/10 := min_eq_left (by norm_num)
  have hbase : interestBase
      ⟨2, "курс", "", ["Machine Learning"], false, none, "AI", 3, "1"⟩
      [("machine_learning", -1)] none = -(7/10) := by
    norm_num [interestBase, interestContribution, hsc, hpw, hmin1]
  have hbm : baseAfterMandatory
      ⟨2, "курс", "", ["Machine Learning"], false, none, "AI", 3, "1"⟩
      [("machine_learning", -1)] none = -(7/10) := by
    norm_num [baseAfterMandatory, hbase]
  have hbp : baseAfterPreferred
      ⟨2, "курс", "", ["Machine Learning"], false, none, "AI", 3, "1"⟩
      [("machine_learning", -1)] none = -(7/10) := by
    have hf : isTruthy none = false := rfl
    norm_num [baseAfterPreferred, hbm, hf]
  have hmin2 : min (-((7 : ℚ)/10)) 1.0 = -(7/10) := min_eq_left (by norm_num)
  norm_num [calculate_course_score, hbp, hmin2]

/-! ## Properties of the text normaliser -/

theorem toLowerM_idem (c : Char) : toLowerM (toLowerM c) = toLowerM c := by
  unfold toLowerM
  cases h : upperLowerTable.lookup c with
  | none => simp [h]
  | some l =>
    simp only [Option.getD_some]
    obtain ⟨a, ha⟩ := lookup_mem _ _ _ h
    have hv : ∀ p ∈ upperLowerTable, upperLowerTable.lookup p.2 = none := by
      decide
    rw [show upperLowerTable.lookup l = none from hv (a, l) ha]
    rfl

theorem splitByGo_mem (sep : Char → Bool) :
    ∀ (cs acc : List Char), (∀ c ∈ acc, sep c = false) →
      ∀ t ∈ splitByGo sep acc cs, t ≠ [] ∧ ∀ c ∈ t, sep c = false := by
  intro cs
  induction cs with
  | nil =>
    intro acc hacc t ht
    rw [splitByGo] at ht
    split at ht
    · cases ht
    · next he =>
      rw [List.mem_singleton] at ht
      subst ht
      refine ⟨fun h0 => he ?_, fun c hc => hacc c (List.mem_reverse.mp hc)⟩
      rw [List.isEmpty_iff, ← List.reverse_eq_nil_iff]
      exact h0
  | cons c cs ih =>
    intro acc hacc t ht
    rw [splitByGo] at ht
    split at ht
    · split at ht
      · exact ih [] (by simp) t ht
      · next he =>
        rcases List.mem_cons.mp ht with rfl | ht2
        · refine ⟨fun h0 => he ?_, fun d hd => hacc d (List.mem_reverse.mp hd)⟩
          rw [List.isEmpty_iff, ← List.reverse_eq_nil_iff]
          exact h0
        · exact ih [] (by simp) t ht2
    · next hsep =>
      refine ih (c :: acc) ?_ t ht
      intro d hd
      rcases List.mem_cons.mp hd with rfl | hd2
      · exact Bool.eq_false_iff.mpr hsep
      · exact hacc d hd2

theorem splitByGo_subset (sep : Char → Bool) :
    ∀ (cs acc t : List Char), t ∈ splitByGo sep acc cs →
      ∀ c ∈ t, c ∈ acc ∨ c ∈ cs := by
  intro cs
  induction cs with
  | nil =>
    intro acc t ht c hc
    rw [splitByGo] at ht
    split at ht
    · cases ht
    · rw [List.mem_singleton] at ht
      subst ht
      exact Or.inl (List.mem_reverse.mp hc)
  | cons x cs ih =>
    intro acc t ht c hc
    rw [splitByGo] at ht
    split at ht
    · split at ht
      · rcases ih [] t ht c hc with h | h
        · cases h
        · exact Or.inr (List.mem_cons_of_mem x h)
      · rcases List.mem_cons.mp ht with rfl | ht2
        · exact Or.inl (List.mem_reverse.mp hc)
        · rcases ih [] t ht2 c hc with h | h
          · cases h
          · exact Or.inr (List.mem_cons_of_mem x h)
    · rcases ih (x :: acc) t ht c hc with h | h
      · rcases List.mem_cons.mp h with rfl | h2
        · exact Or.inr (List.mem_cons_self _ _)
        · exact Or.inl h2
      · exact Or.inr (List.mem_cons_of_mem x h)

theorem mem_subNonWordToSpace_of_not_space {c : Char} {l : List Char}
    (hc : c ∈ subNonWordToSpace l) (hs : isSpaceChar c = false) :
    c ∈ l ∧ isWordChar c = true := by
  obtain ⟨d, hd, he⟩ := List.mem_map.mp hc
  by_cases hw : (isWordChar d || isSpaceChar d) = true
  · rw [if_pos hw] at he
    subst he
    rw [Bool.or_eq_true] at hw
    rcases hw with h | h
    · exact ⟨hd, h⟩
    · rw [h] at hs
      cases hs
  · rw [if_neg hw] at he
    subst he
    exact absurd hs (by decide)

theorem mem_collapseWSGo {c : Char} :
    ∀ (l : List Char) (b : Bool), c ∈ collapseWSGo b l → c ∈ l ∨ c = ' ' := by
  intro l
  induction l with
  | nil => intro b h; cases h
  | cons x xs ih =>
    intro b h
    rw [collapseWSGo] at h
    split at h
    · split at h
      · rcases ih true h with h2 | h2
        · exact Or.inl (List.mem_cons_of_mem x h2)
        · exact Or.inr h2
      · rcases List.mem_cons.mp h with rfl | h2
        · exact Or.inr rfl
        · rcases ih true h2 with h3 | h3
          · exact Or.inl (List.mem_cons_of_mem x h3)
          · exact Or.inr h3
    · rcases List.mem_cons.mp h with rfl | h2
      · exact Or.inl (List.mem_cons_self _ _)
      · rcases ih false h2 with h3 | h3
        · exact Or.inl (List.mem_cons_of_mem x h3)
        · exact Or.inr h3

theorem mem_stripChars {c : Char} {l : List Char}
    (h : c ∈ stripChars l) : c ∈ l := by
  unfold stripChars at h
  rw [List.mem_reverse] at h
  have h2 := (List.dropWhile_sublist _).subset h
  rw [List.mem_reverse] at h2
  exact (List.dropWhile_sublist _).subset h2

/-- The raw tokens of `_preprocess_text` are non-empty strings of
lower-case word characters. -/
theorem preprocess_token_chars (text : String) (t : List Char)
    (ht : t ∈ splitWS (stripChars (collapseWhitespace (subNonWordToSpace
      (lowerChars text.toList))))) :
    t ≠ [] ∧ ∀ c ∈ t, isWordChar c = true ∧ isSpaceChar c = false ∧
      toLowerM c = c := by
  obtain ⟨hne, hns⟩ := splitByGo_mem _ _ [] (by simp) t ht
  refine ⟨hne, fun c hc => ?_⟩
  have hnsc : isSpaceChar c = false := hns c hc
  have hmem : c ∈ stripChars (collapseWhitespace (subNonWordToSpace
      (lowerChars text.toList))) := by
    rcases splitByGo_subset _ _ [] t ht c hc with h | h
    · cases h
    · exact h
  have hmem2 := mem_stripChars hmem
  rcases mem_collapseWSGo _ false hmem2 with hmem3 | hsp
  · obtain ⟨hmem4, hword⟩ := mem_subNonWordToSpace_of_not_space hmem3 hnsc
    obtain ⟨d, -, hd⟩ := List.mem_map.mp hmem4
    refine ⟨hword, hnsc, ?_⟩
    rw [← hd]
    exact toLowerM_idem d
  · rw [hsp] at hnsc
    exact absurd hnsc (by decide)

/-! ## Splitting is invariant under whitespace collapsing and stripping -/

theorem splitWS_collapseWSGo (cs : List Char) :
    (∀ acc, splitByGo isSpaceChar acc (collapseWSGo false cs)
      = splitByGo isSpaceChar acc cs) ∧
    splitByGo isSpaceChar [] (collapseWSGo true cs)
      = splitByGo isSpaceChar [] cs := by
  induction cs with
  | nil => exact ⟨fun acc => rfl, rfl⟩
  | cons c cs ih =>
    cases hsp : isSpaceChar c with
    | true =>
      constructor
      · intro acc
        rw [collapseWSGo, if_pos hsp, if_neg (by simp)]
        rw [splitByGo, if_pos (show isSpaceChar ' ' = true by decide)]
        rw [splitByGo, if_pos hsp]
        by_cases he : acc.isEmpty = true
        · rw [if_pos he, if_pos he, ih.2]
        · rw [if_neg he, if_neg he, ih.2]
      · rw [collapseWSGo, if_pos hsp, if_pos rfl]
        rw [show splitByGo isSpaceChar [] (c :: cs)
          = splitByGo isSpaceChar [] cs by
            rw [splitByGo, if_pos hsp, if_pos (by simp)]]
        exact ih.2
    | false =>
      constructor
      · intro acc
        rw [collapseWSGo, if_neg (by simp [hsp])]
        rw [splitByGo, if_neg (by simp [hsp])]
        rw [splitByGo, if_neg (by simp [hsp])]
        exact ih.1 (c :: acc)
      · rw [collapseWSGo, if_neg (by simp [hsp])]
        rw [splitByGo, if_neg (by simp [hsp])]
        rw [splitByGo, if_neg (by simp [hsp])]
        exact ih.1 [c]

theorem splitWS_collapseWhitespace (l : List Char) :
    splitWS (collapseWhitespace l) = splitWS l :=
  (splitWS_collapseWSGo l).1 []

theorem splitByGo_all_sep (sep : Char → Bool) :
    ∀ (m acc : List Char), (∀ c ∈ m, sep c = true) →
      splitByGo sep acc m = splitByGo sep acc [] := by
  intro m
  induction m with
  | nil => intro acc _; rfl
  | cons c m ih =>
    intro acc h
    rw [show splitByGo sep acc (c :: m)
      = if sep c then
          (if acc.isEmpty then splitByGo sep [] m
            else acc.reverse :: splitByGo sep [] m)
        else splitByGo sep (c :: acc) m from rfl]
    rw [if_pos (h c (List.mem_cons_self _ _))]
    have hm : ∀ d ∈ m, sep d = true := fun d hd => h d (List.mem_cons_of_mem c hd)
    by_cases he : acc.isEmpty = true
    · rw [if_pos he, ih [] hm,
        show splitByGo sep acc [] = [] from by rw [splitByGo, if_pos he]]
      rfl
    · rw [if_neg he, ih [] hm,
        show splitByGo sep acc [] = [acc.reverse] from by
          rw [splitByGo, if_neg he]]
      rfl

theorem splitByGo_append_sep (sep : Char → Bool) :
    ∀ (l m acc : List Char), (∀ c ∈ m, sep c = true) →
      splitByGo sep acc (l ++ m) = splitByGo sep acc l := by
  intro l
  induction l with
  | nil =>
    intro m acc h
    rw [List.nil_append]
    exact splitByGo_all_sep sep m acc h
  | cons c l ih =>
    intro m acc h
    rw [List.cons_append, splitByGo]
    rw [show splitByGo sep acc (c :: l)
      = if sep c then
          (if acc.isEmpty then splitByGo sep [] l
            else acc.reverse :: splitByGo sep [] l)
        else splitByGo sep (c :: acc) l from rfl]
    by_cases hc : sep c = true
    · rw [if_pos hc, if_pos hc]
      by_cases he : acc.isEmpty = true
      · rw [if_pos he, if_pos he, ih m [] h]
      · rw [if_neg he, if_neg he, ih m [] h]
    · rw [if_neg hc, if_neg hc, ih m (c :: acc) h]

theorem splitByGo_leading (sep : Char → Bool) :
    ∀ (m l : List Char), (∀ c ∈ m, sep c = true) →
      splitByGo sep [] (m ++ l) = splitByGo sep [] l := by
  intro m
  induction m with
  | nil => intro l _; rfl
  | cons c m ih =>
    intro l h
    rw [List.cons_append, splitByGo, if_pos (h c (List.mem_cons_self _ _)),
      if_pos (by simp)]
    exact ih l fun d hd => h d (List.mem_cons_of_mem c hd)

theorem splitWS_stripChars (l : List Char) :
    splitWS (stripChars l) = splitWS l := by
  have h1 : splitWS l = splitWS (l.dropWhile isSpaceChar) := by
    conv_lhs => rw [← List.takeWhile_append_dropWhile isSpaceChar l]
    exact splitByGo_leading isSpaceChar _ _ fun c hc => List.mem_takeWhile_imp hc
  have h3 : l.dropWhile isSpaceChar
      = ((l.dropWhile isSpaceChar).reverse.dropWhile isSpaceChar).reverse
        ++ ((l.dropWhile isSpaceChar).reverse.takeWhile isSpaceChar).reverse := by
    conv_lhs => rw [← List.reverse_reverse (l.dropWhile isSpaceChar),
      ← List.takeWhile_append_dropWhile isSpaceChar
        (l.dropWhile isSpaceChar).reverse]
    rw [List.reverse_append]
  have h2 : splitWS (l.dropWhile isSpaceChar) = splitWS (stripChars l) := by
    conv_lhs => rw [h3]
    exact splitByGo_append_sep isSpaceChar _ _ _ fun c hc =>
      List.mem_takeWhile_imp (List.mem_reverse.mp hc)
  rw [h1, h2]

/-! ## Splitting a space-joined token list recovers the tokens -/

theorem mem_joinWithSpace {c : Char} :
    ∀ ts : List (List Char), c ∈ joinWithSpace ts →
      c = ' ' ∨ ∃ t ∈ ts, c ∈ t := by
  intro ts
  induction ts with
  | nil => intro h; cases h
  | cons t ts ih =>
    cases ts with
    | nil => intro h; exact Or.inr ⟨t, by simp, h⟩
    | cons u us =>
      intro h
      simp only [joinWithSpace] at h
      rcases List.mem_append.mp h with h1 | h2
      · exact Or.inr ⟨t, by simp, h1⟩
      · rcases List.mem_cons.mp h2 with rfl | h3
        · exact Or.inl rfl
        · rcases ih h3 with h4 | ⟨v, hv, hcv⟩
          · exact Or.inl h4
          · exact Or.inr ⟨v, by simp [hv], hcv⟩

theorem splitByGo_nonsep_chunk (sep : Char → Bool) :
    ∀ (t rest acc : List Char), (∀ c ∈ t, sep c = false) →
      splitByGo sep acc (t ++ rest)
        = splitByGo sep (t.reverse ++ acc) rest := by
  intro t
  induction t with
  | nil => intro rest acc _; rfl
  | cons c t ih =>
    intro rest acc h
    rw [List.cons_append, splitByGo,
      if_neg (by simp [h c (List.mem_cons_self _ _)])]
    rw [ih rest (c :: acc) fun d hd => h d (List.mem_cons_of_mem c hd)]
    rw [List.reverse_cons, List.append_assoc]
    rfl

theorem splitWS_joinWithSpace :
    ∀ ts : List (List Char),
      (∀ t ∈ ts, t ≠ [] ∧ ∀ c ∈ t, isSpaceChar c = false) →
      splitWS (joinWithSpace ts) = ts := by
  intro ts
  induction ts with
  | nil => intro _; rfl
  | cons t ts ih =>
    intro h
    obtain ⟨ht0, htc⟩ := h t (by simp)
    have hrevne : t.reverse.isEmpty = false := by
      rw [Bool.eq_false_iff]
      intro hx
      exact ht0 (by rwa [List.isEmpty_iff, List.reverse_eq_nil_iff] at hx)
    cases ts with
    | nil =>
      show splitWS (joinWithSpace [t]) = [t]
      have hj : joinWithSpace [t] = t := rfl
      rw [hj]
      unfold splitWS splitBy
      conv_lhs => rw [show (t : List Char) = t ++ [] from (List.append_nil t).symm]
      rw [splitByGo_nonsep_chunk isSpaceChar t [] [] htc]
      rw [List.append_nil, splitByGo, if_neg (by simp [hrevne]),
        List.reverse_reverse]
    | cons u us =>
      show splitWS (t ++ ' ' :: joinWithSpace (u :: us)) = t :: u :: us
      unfold splitWS splitBy
      rw [splitByGo_nonsep_chunk isSpaceChar t (' ' :: joinWithSpace (u :: us))
        [] htc]
      rw [List.append_nil, splitByGo,
        if_pos (show isSpaceChar ' ' = true by decide),
        if_neg (by simp [hrevne]), List.reverse_reverse]
      congr 1
      exact ih fun v hv => h v (List.mem_cons_of_mem t hv)

theorem lowerChars_eq_self {l : List Char}
    (h : ∀ c ∈ l, toLowerM c = c) : lowerChars l = l := by
  unfold lowerChars
  rw [List.map_congr_left h]
  exact List.map_id' l

theorem subNonWordToSpace_eq_self {l : List Char}
    (h : ∀ c ∈ l, (isWordChar c || isSpaceChar c) = true) :
    subNonWordToSpace l = l := by
  unfold subNonWordToSpace
  rw [List.map_congr_left fun c hc => if_pos (h c hc)]
  exact List.map_id' l

/-- Tokens that are non-empty, lower-case, space-free word-character
strings pass through the cleaning pipeline unchanged and split back into
themselves. -/
theorem pipeline_joinWithSpace (ts : List (List Char))
    (h : ∀ t ∈ ts, t ≠ [] ∧ ∀ c ∈ t,
      isWordChar c = true ∧ isSpaceChar c = false ∧ toLowerM c = c) :
    splitWS (stripChars (collapseWhitespace (subNonWordToSpace
      (lowerChars (joinWithSpace ts))))) = ts := by
  have hchar : ∀ c ∈ joinWithSpace ts,
      (isWordChar c || isSpaceChar c) = true ∧ toLowerM c = c := by
    intro c hc
    rcases mem_joinWithSpace _ hc with rfl | ⟨t, ht, hct⟩
    · exact ⟨by decide, by decide⟩
    · obtain ⟨-, hall⟩ := h t ht
      obtain ⟨hw, -, hl⟩ := hall c hct
      exact ⟨by simp [hw], hl⟩
  rw [lowerChars_eq_self fun c hc => (hchar c hc).2]
  rw [subNonWordToSpace_eq_self fun c hc => (hchar c hc).1]
  rw [splitWS_stripChars, splitWS_collapseWhitespace]
  exact splitWS_joinWithSpace ts fun t ht =>
    ⟨(h t ht).1, fun c hc => ((h t ht).2 c hc).2.1⟩

/-! ## Claims C8 and C9 -/

/-- String round-trip helper. -/
theorem string_mk_toList (s : String) : String.mk s.toList = s := by
  cases s
  rfl

/-- C8 (amended): the stop-word/length filter runs before stemming: every
output token of `_preprocess_text` is the stem of some token of length
greater than 2 that is not a stop-word; in particular with the identity
stemmer (the fallback when NLTK initialisation fails) the output itself
contains no short tokens and no stop-words.  With the Russian stemmer the
output can contain stop-words (see the counterexample). -/
theorem preprocess_tokens_filtered_before_stemming :
    (∀ (stem : String → String) (stop : List String) (text : String)
      (t : String), t ∈ preprocessTokens stem stop text →
      ∃ u : String, t = stem u ∧ 2 < u.length ∧ u ∉ stop) ∧
    ∀ (stop : List String) (text : String) (t : String),
      t ∈ preprocessTokens (fun s => s) stop text →
      2 < t.length ∧ t ∉ stop := by
  have main : ∀ (stem : String → String) (stop : List String) (text : String)
      (t : String), t ∈ preprocessTokens stem stop text →
      ∃ u : String, t = stem u ∧ 2 < u.length ∧ u ∉ stop := by
    intro stem stop text t ht
    unfold preprocessTokens at ht
    obtain ⟨u, hu, rfl⟩ := List.mem_map.mp ht
    have hp := List.of_mem_filter hu
    rw [Bool.and_eq_true] at hp
    obtain ⟨h1, h2⟩ := hp
    refine ⟨u, rfl, by simpa using h2, ?_⟩
    intro hmem
    have h1' : stop.contains u = false := by simpa using h1
    rw [show stop.contains u = List.elem u stop from rfl,
      List.elem_iff.mpr hmem] at h1'
    cases h1'
  refine ⟨main, fun stop text t ht => ?_⟩
  obtain ⟨u, hu, h2, h3⟩ := main _ stop text t ht
  cases hu
  exact ⟨h2, h3⟩

/-- Witness for the amended C8 at a concrete input. -/
theorem preprocess_tokens_filtered_before_stemming_witness :
    2 < ("программа" : String).length ∧
      "программа" ∉ ([] : List String) :=
  preprocess_tokens_filtered_before_stemming.2 [] "программа" "программа"
    (by decide)

/-- C8 (counterexample): with the configured stop set (which contains
`год` among the additional stop-words) and the Russian stemmer (which
sends `года` to `год`, modelled here by the relevant finite restriction of
the Snowball stemmer), the normalised output of `года` is the stop-word
`год`: the guarantee fails because stemming happens after the filter. -/
theorem preprocess_stopword_counterexample :
    _preprocess_text (fun s => if s = "года" then "год" else s)
        additional_stops "года" = "год" ∧
    "год" ∈ additional_stops := by
  exact ⟨rfl, by decide⟩

/-- The second application of the normaliser (with the identity stemmer)
reproduces the token list of the first. -/
theorem preprocessTokens_second_pass (stop : List String) (text : String) :
    preprocessTokens (fun s => s) stop
        (_preprocess_text (fun s => s) stop text)
      = preprocessTokens (fun s => s) stop text := by
  have hsplit : splitWS (stripChars (collapseWhitespace (subNonWordToSpace
      (lowerChars (_preprocess_text (fun s => s) stop text).toList))))
      = (preprocessTokens (fun s => s) stop text).map String.toList := by
    have htl : (_preprocess_text (fun s => s) stop text).toList
        = joinWithSpace ((preprocessTokens (fun s => s) stop text).map
          String.toList) := rfl
    rw [htl]
    apply pipeline_joinWithSpace
    intro t ht
    obtain ⟨u, hu, rfl⟩ := List.mem_map.mp ht
    simp only [preprocessTokens] at hu
    rw [List.map_id'] at hu
    have hv2 := List.mem_filter.mp hu
    obtain ⟨w, hw, rfl⟩ := List.mem_map.mp hv2.1
    have hchars := preprocess_token_chars text w hw
    simpa using hchars
  have hmk : (splitWS (stripChars (collapseWhitespace (subNonWordToSpace
      (lowerChars (_preprocess_text (fun s => s) stop text).toList))))).map
        String.mk
      = preprocessTokens (fun s => s) stop text := by
    rw [hsplit, List.map_map]
    have hcomp : ∀ t ∈ preprocessTokens (fun s => s) stop text,
        (String.mk ∘ String.toList) t = t := fun t _ => string_mk_toList t
    rw [List.map_congr_left hcomp, List.map_id']
  have hall : ∀ s ∈ preprocessTokens (fun s => s) stop text,
      (!stop.contains s && decide (2 < s.length)) = true := by
    intro s hs
    simp only [preprocessTokens] at hs
    rw [List.map_id'] at hs
    simpa using List.of_mem_filter hs
  conv_lhs => simp only [preprocessTokens]
  rw [hmk, List.filter_eq_self.mpr hall, List.map_id']

/-- C9 (amended): with the identity stemmer (the fallback used when NLTK
initialisation fails) the normaliser is exactly idempotent, token order
included.  With the Russian stemmer idempotence fails (see the
counterexample): re-stemmed tokens can be filtered away. -/
theorem normalize_idempotent_identity_stemmer (stop : List String)
    (text : String) :
    _preprocess_text (fun s => s) stop
        (_preprocess_text (fun s => s) stop text)
      = _preprocess_text (fun s => s) stop text := by
  show joinTokens (preprocessTokens (fun s => s) stop
      (_preprocess_text (fun s => s) stop text))
    = _preprocess_text (fun s => s) stop text
  rw [preprocessTokens_second_pass]
  rfl

/-- C9 (counterexample): with the configured stop set and the Russian
stemmer (its relevant finite restriction sends `года` to `год`),
normalising `года` yields the single token `год`, but normalising again
yields no tokens at all (the stop-word filter of the second pass removes
`год`), so `normalize(normalize(x))` is not a reordering of
`normalize(x)`. -/
theorem normalize_not_idempotent_counterexample :
    preprocessTokens (fun s => if s = "года" then "год" else s)
        additional_stops
        (_preprocess_text (fun s => if s = "года" then "год" else s)
          additional_stops "года") = [] ∧
    preprocessTokens (fun s => if s = "года" then "год" else s)
        additional_stops "года" = ["год"] ∧
    ¬ (([] : List String).Perm ["год"]) := by
  refine ⟨rfl, rfl, fun h => ?_⟩
  simpa using h.length_eq

/-! ## Cosine similarity bounds -/

theorem dotProd_self_nonneg (vocab : List (List Char)) (w : List Char → ℝ) :
    0 ≤ dotProd vocab w w := by
  apply List.sum_nonneg
  intro x hx
  obtain ⟨t, -, rfl⟩ := List.mem_map.mp hx
  exact mul_self_nonneg _

theorem dotProd_nonneg (vocab : List (List Char)) (u v : List Char → ℝ)
    (hu : ∀ t, 0 ≤ u t) (hv : ∀ t, 0 ≤ v t) : 0 ≤ dotProd vocab u v := by
  apply List.sum_nonneg
  intro x hx
  obtain ⟨t, -, rfl⟩ := List.mem_map.mp hx
  exact mul_nonneg (hu t) (hv t)

/-- Cauchy-Schwarz for the vocabulary dot product, by induction on the
vocabulary list. -/
theorem dotProd_sq_le (vocab : List (List Char)) (u v : List Char → ℝ) :
    (dotProd vocab u v) ^ 2 ≤ dotProd vocab u u * dotProd vocab v v := by
  induction vocab with
  | nil => simp [dotProd]
  | cons t ts ih =>
    have hA : 0 ≤ dotProd ts u u := dotProd_self_nonneg ts u
    have hB : 0 ≤ dotProd ts v v := dotProd_self_nonneg ts v
    simp only [dotProd, List.map_cons, List.sum_cons] at *
    rcases eq_or_lt_of_le hB with hB0 | hBpos
    · have hS : ((ts.map fun s => u s * v s).sum) = 0 := by
        nlinarith [sq_nonneg ((ts.map fun s => u s * v s).sum)]
      rw [hS, ← hB0]
      nlinarith [mul_nonneg hA (mul_self_nonneg (v t))]
    · nlinarith [sq_nonneg (u t * (ts.map fun s => v s * v s).sum
        - v t * (ts.map fun s => u s * v s).sum),
        mul_nonneg (sub_nonneg.mpr ih) (mul_self_nonneg (v t)),
        mul_nonneg (sub_nonneg.mpr ih) (le_of_lt hBpos)]

theorem cosSim_nonneg (vocab : List (List Char)) (u v : List Char → ℝ)
    (hu : ∀ t, 0 ≤ u t) (hv : ∀ t, 0 ≤ v t) : 0 ≤ cosSim vocab u v :=
  div_nonneg (dotProd_nonneg vocab u v hu hv)
    (mul_nonneg (Real.sqrt_nonneg _) (Real.sqrt_nonneg _))

theorem cosSim_le_one (vocab : List (List Char)) (u v : List Char → ℝ)
    (hu : ∀ t, 0 ≤ u t) (hv : ∀ t, 0 ≤ v t) : cosSim vocab u v ≤ 1 := by
  unfold cosSim
  by_cases h : Real.sqrt (dotProd vocab u u) * Real.sqrt (dotProd vocab v v)
      = 0
  · rw [h, div_zero]
    norm_num
  · have hM : 0 ≤ Real.sqrt (dotProd vocab u u)
        * Real.sqrt (dotProd vocab v v) :=
      mul_nonneg (Real.sqrt_nonneg _) (Real.sqrt_nonneg _)
    have hpos : 0 < Real.sqrt (dotProd vocab u u)
        * Real.sqrt (dotProd vocab v v) := lt_of_le_of_ne hM (Ne.symm h)
    rw [div_le_one hpos]
    have hD : 0 ≤ dotProd vocab u v := dotProd_nonneg vocab u v hu hv
    have h2 : (dotProd vocab u v) ^ 2
        ≤ (Real.sqrt (dotProd vocab u u)
            * Real.sqrt (dotProd vocab v v)) ^ 2 := by
      rw [mul_pow, Real.sq_sqrt (dotProd_self_nonneg vocab u),
        Real.sq_sqrt (dotProd_self_nonneg vocab v)]
      exact dotProd_sq_le vocab u v
    nlinarith [h2, hD, hM]

/-- A vector identical on both sides with positive self-product has cosine
similarity exactly 1. -/
theorem cosSim_self (vocab : List (List Char)) (w : List Char → ℝ)
    (hpos : 0 < dotProd vocab w w) : cosSim vocab w w = 1 := by
  unfold cosSim
  rw [Real.mul_self_sqrt (le_of_lt hpos)]
  exact div_self (ne_of_gt hpos)

/-! ## TF-IDF weights are nonnegative -/

theorem idfVal_ge_one (n df : ℕ) (h : df ≤ n) : 1 ≤ idfVal n df := by
  unfold idfVal
  have h1 : (1 : ℝ) ≤ (1 + (n : ℝ)) / (1 + (df : ℝ)) := by
    rw [le_div_iff (by positivity)]
    have : (df : ℝ) ≤ (n : ℝ) := Nat.cast_le.mpr h
    linarith
  have h2 := Real.log_nonneg h1
  linarith

theorem docFreq_le_length (docs : List (List (List Char))) (t : List Char) :
    docFreq docs t ≤ docs.length :=
  List.length_filter_le _ _

theorem tfidfWeight_nonneg (docs : List (List (List Char)))
    (d : List (List Char)) (t : List Char) : 0 ≤ tfidfWeight docs d t :=
  mul_nonneg (Nat.cast_nonneg _)
    (le_trans (by norm_num) (idfVal_ge_one _ _ (docFreq_le_length docs t)))

theorem similarities_mem_unit (stem : String → String) (stop : List String)
    (pairs : List QAPair) (q : String) :
    ∀ s ∈ similarities stem stop pairs q, 0 ≤ s ∧ s ≤ 1 := by
  intro s hs
  simp only [similarities] at hs
  obtain ⟨d, -, rfl⟩ := List.mem_map.mp hs
  exact ⟨cosSim_nonneg _ _ _ (fun t => tfidfWeight_nonneg _ _ t)
      (fun t => tfidfWeight_nonneg _ _ t),
    cosSim_le_one _ _ _ (fun t => tfidfWeight_nonneg _ _ t)
      (fun t => tfidfWeight_nonneg _ _ t)⟩

theorem similarities_length (stem : String → String) (stop : List String)
    (pairs : List QAPair) (q : String) :
    (similarities stem stop pairs q).length = pairs.length := by
  simp [similarities, corpusDocs, processedQuestions]

/-! ## `np.argmax` -/

theorem argmaxAux_lt (N : ℕ) :
    ∀ (xs : List ℝ) (i bi : ℕ) (bv : ℝ), bi < N → i + xs.length ≤ N →
      argmaxAux i bi bv xs < N := by
  intro xs
  induction xs with
  | nil =>
    intro i bi bv h _
    simpa [argmaxAux] using h
  | cons x xs ih =>
    intro i bi bv hbi hlen
    rw [show argmaxAux i bi bv (x :: xs)
      = if bv < x then argmaxAux (i + 1) i x xs
        else argmaxAux (i + 1) bi bv xs from rfl]
    rw [List.length_cons] at hlen
    by_cases hlt : bv < x
    · rw [if_pos hlt]
      exact ih (i + 1) i x (by omega) (by omega)
    · rw [if_neg hlt]
      exact ih (i + 1) bi bv hbi (by omega)

theorem np_argmax_lt (l : List ℝ) (h : l ≠ []) : np_argmax l < l.length := by
  cases l with
  | nil => cases h rfl
  | cons x xs =>
    rw [show np_argmax (x :: xs) = argmaxAux 1 0 x xs from rfl,
      List.length_cons]
    exact argmaxAux_lt _ xs 1 0 x (by omega) (by omega)

theorem argmaxAux_spec (full : List ℝ) :
    ∀ (xs : List ℝ) (i bi : ℕ) (bv : ℝ),
      (∀ k, k < xs.length → full.getD (i + k) 0 = xs.getD k 0) →
      full.getD bi 0 = bv →
      bv ≤ full.getD (argmaxAux i bi bv xs) 0 ∧
      ∀ k, k < xs.length →
        xs.getD k 0 ≤ full.getD (argmaxAux i bi bv xs) 0 := by
  intro xs
  induction xs with
  | nil =>
    intro i bi bv _ hbi
    exact ⟨by rw [show argmaxAux i bi bv [] = bi from rfl, hbi],
      fun k hk => absurd hk (by simp)⟩
  | cons x xs ih =>
    intro i bi bv hfull hbi
    rw [show argmaxAux i bi bv (x :: xs)
      = if bv < x then argmaxAux (i + 1) i x xs
        else argmaxAux (i + 1) bi bv xs from rfl]
    have hfx : full.getD i 0 = x := by
      have := hfull 0 (by simp)
      simpa using this
    have hshift : ∀ k, k < xs.length →
        full.getD (i + 1 + k) 0 = xs.getD k 0 := by
      intro k hk
      have := hfull (k + 1) (by simpa using Nat.succ_lt_succ hk)
      rw [show i + (k + 1) = i + 1 + k by omega] at this
      simpa using this
    by_cases hlt : bv < x
    · rw [if_pos hlt]
      have h1 := ih (i + 1) i x hshift hfx
      refine ⟨le_trans (le_of_lt hlt) h1.1, fun k hk => ?_⟩
      cases k with
      | zero => simpa using h1.1
      | succ k =>
        have := h1.2 k (by simpa using Nat.lt_of_succ_lt_succ hk)
        simpa using this
    · rw [if_neg hlt]
      have h1 := ih (i + 1) bi bv hshift hbi
      refine ⟨h1.1, fun k hk => ?_⟩
      cases k with
      | zero =>
        have hxle : x ≤ bv := le_of_not_lt hlt
        simpa using le_trans hxle h1.1
      | succ k =>
        have := h1.2 k (by simpa using Nat.lt_of_succ_lt_succ hk)
        simpa using this

theorem np_argmax_ge (l : List ℝ) :
    ∀ k, k < l.length → l.getD k 0 ≤ l.getD (np_argmax l) 0 := by
  cases l with
  | nil => intro k hk; simp at hk
  | cons x xs =>
    have hsh : ∀ k, k < xs.length →
        (x :: xs).getD (1 + k) 0 = xs.getD k 0 := by
      intro k hk
      rw [show 1 + k = k + 1 by omega]
      rfl
    have h := argmaxAux_spec (x :: xs) xs 1 0 x hsh (by rfl)
    intro k hk
    rw [show np_argmax (x :: xs) = argmaxAux 1 0 x xs from rfl]
    cases k with
    | zero => simpa using h.1
    | succ k =>
      have := h.2 k (by simpa using Nat.lt_of_succ_lt_succ hk)
      simpa using this

/-! ## Bounds and structure of `find_similar_question` and `get_answer` -/

theorem getD_unit_of_mem_unit (l : List ℝ)
    (h : ∀ s ∈ l, 0 ≤ s ∧ s ≤ 1) (idx : ℕ) :
    0 ≤ l.getD idx 0 ∧ l.getD idx 0 ≤ 1 := by
  by_cases hidx : idx < l.length
  · have hmem : l.getD idx 0 ∈ l := by
      rw [List.getD_eq_getElem l 0 hidx]
      exact List.getElem_mem hidx
    exact h _ hmem
  · rw [List.getD_eq_default l 0 (le_of_not_lt hidx)]
    norm_num

theorem find_similar_snd_unit (stem : String → String) (stop : List String)
    (pairs : List QAPair) (q : String) :
    0 ≤ (find_similar_question stem stop pairs q).2 ∧
      (find_similar_question stem stop pairs q).2 ≤ 1 := by
  unfold find_similar_question
  split
  · norm_num
  · dsimp only
    have hb := getD_unit_of_mem_unit (similarities stem stop pairs q)
      (similarities_mem_unit stem stop pairs q)
      (np_argmax (similarities stem stop pairs q))
    split
    · exact hb
    · exact hb

theorem get_answer_confidence_unit (stem : String → String)
    (stop : List String) (pairs : List QAPair) (q : String) :
    0 ≤ (get_answer stem stop pairs q).confidence ∧
      (get_answer stem stop pairs q).confidence ≤ 1 := by
  have hfs := find_similar_snd_unit stem stop pairs q
  unfold get_answer
  cases hres : find_similar_question stem stop pairs q with
  | mk opt s =>
    rw [hres] at hfs
    cases opt with
    | none => simp [noMatchResult]
    | some qa =>
      dsimp only
      split
      · exact hfs
      · exact hfs

/-! ## Claim C1 -/

/-- C1 (amended): the course score lies in `[0, 1]` for every course,
preferred program and interest mapping with nonnegative weights (the
weights the interest extractor produces); and the confidence returned by
`get_answer` lies in `[0, 1]` for every corpus and query, unconditionally.
Over arbitrary signed weights the score bound fails (see the
counterexample). -/
theorem score_and_confidence_unit_interval :
    (∀ (course : Course) (user_interests : List (String × ℚ))
      (preferred_program : Option String),
      (∀ p ∈ user_interests, (0 : ℚ) ≤ p.2) →
      0 ≤ (calculate_course_score course user_interests preferred_program).1 ∧
        (calculate_course_score course user_interests preferred_program).1
          ≤ 1) ∧
    ∀ (stem : String → String) (stop : List String) (pairs : List QAPair)
      (q : String),
      0 ≤ (get_answer stem stop pairs q).confidence ∧
        (get_answer stem stop pairs q).confidence ≤ 1 :=
  ⟨calculate_course_score_unit, get_answer_confidence_unit⟩

/-- Witness for the amended C1 at a concrete course and interest set. -/
theorem score_and_confidence_unit_interval_witness :
    0 ≤ (calculate_course_score
        ⟨1, "Машинное обучение", "", ["Machine Learning"], false, some "AI",
          "AI", 3, "1"⟩ [("machine_learning", 1)] none).1 :=
  (score_and_confidence_unit_interval.1 _ [("machine_learning", 1)] none
    (by rintro p hp; fin_cases hp; norm_num)).1

/-! ## Claim C2 -/

/-- C2: `get_answer` is a total function into structured results, and when
the vectorizer is unfit (`question_vectors is None` — empty corpus, or
every question normalising to the empty string so that `fit_transform`
raised and `_fit_vectorizer` caught the error) it returns exactly the
NO_MATCH response: the fixed fallback answer, confidence 0.0 and no
matched question.  In every other case the result is built from a record
of the corpus. -/
theorem get_answer_total_and_unfit_no_match (stem : String → String)
    (stop : List String) (pairs : List QAPair) (q : String) :
    (fitOk stem stop pairs = false →
      get_answer stem stop pairs q = noMatchResult) ∧
    (get_answer stem stop pairs q = noMatchResult ∨
      ∃ qa ∈ pairs,
        (get_answer stem stop pairs q).matched_question = some qa.question ∧
        (get_answer stem stop pairs q).confidence
          = (find_similar_question stem stop pairs q).2) := by
  have hpart1 : fitOk stem stop pairs = false →
      get_answer stem stop pairs q = noMatchResult := by
    intro h
    unfold get_answer find_similar_question
    rw [if_pos h]
  refine ⟨hpart1, ?_⟩
  by_cases hfit : fitOk stem stop pairs = false
  · exact Or.inl (hpart1 hfit)
  · have hne : pairs ≠ [] := by
      intro h0
      apply hfit
      subst h0
      rfl
    have hsne : similarities stem stop pairs q ≠ [] := by
      intro h0
      apply hne
      have hl := congrArg List.length h0
      rw [similarities_length] at hl
      exact List.length_eq_zero.mp hl
    have hidx : np_argmax (similarities stem stop pairs q) < pairs.length := by
      rw [← similarities_length stem stop pairs q]
      exact np_argmax_lt _ hsne
    have hfind : find_similar_question stem stop pairs q
        = (none, (similarities stem stop pairs q).getD
            (np_argmax (similarities stem stop pairs q)) 0) ∨
        find_similar_question stem stop pairs q
        = (some (pairs.getD (np_argmax (similarities stem stop pairs q))
            default),
          (similarities stem stop pairs q).getD
            (np_argmax (similarities stem stop pairs q)) 0) := by
      unfold find_similar_question
      rw [if_neg hfit]
      dsimp only
      split
      · exact Or.inr rfl
      · exact Or.inl rfl
    rcases hfind with hf | hf
    · left
      unfold get_answer
      rw [hf]
    · right
      refine ⟨pairs.getD (np_argmax (similarities stem stop pairs q)) default,
        ?_, ?_, ?_⟩
      · rw [List.getD_eq_getElem pairs default hidx]
        exact List.getElem_mem hidx
      · unfold get_answer
        rw [hf]
        dsimp only
        split
        · rfl
        · rfl
      · unfold get_answer
        rw [hf]
        dsimp only
        split
        · rfl
        · rfl

/-- Witness for C2: the empty corpus is unfit and yields the NO_MATCH
response. -/
theorem get_answer_total_and_unfit_no_match_witness :
    get_answer (fun s => s) [] [] "Сколько длится обучение?"
      = noMatchResult :=
  (get_answer_total_and_unfit_no_match (fun s => s) [] []
    "Сколько длится обучение?").1 rfl

/-! ## Claim C6 -/

theorem list_sum_pos_of_mem :
    ∀ (l : List ℝ), (∀ y ∈ l, 0 ≤ y) → ∀ x ∈ l, 0 < x → 0 < l.sum := by
  intro l
  induction l with
  | nil => intro _ x hx; cases hx
  | cons a t ih =>
    intro h0 x hx hxpos
    rw [List.sum_cons]
    rcases List.mem_cons.mp hx with rfl | hx2
    · have ht : 0 ≤ t.sum :=
        List.sum_nonneg fun y hy => h0 y (List.mem_cons_of_mem _ hy)
      linarith
    · have ha : 0 ≤ a := h0 a (List.mem_cons_self _ _)
      have := ih (fun y hy => h0 y (List.mem_cons_of_mem _ hy)) x hx2 hxpos
      linarith

/-- A document containing a vocabulary term has a strictly positive TF-IDF
self-product. -/
theorem tfidf_self_dot_pos (docs : List (List (List Char)))
    (d : List (List Char)) (vocab : List (List Char)) (t0 : List Char)
    (ht0v : t0 ∈ vocab) (ht0d : t0 ∈ d) :
    0 < dotProd vocab (tfidfWeight docs d) (tfidfWeight docs d) := by
  unfold dotProd
  apply list_sum_pos_of_mem _ ?_
    (tfidfWeight docs d t0 * tfidfWeight docs d t0)
    (List.mem_map.mpr ⟨t0, ht0v, rfl⟩)
  · have hcount : 0 < d.count t0 := List.count_pos_iff.mpr ht0d
    have hidf := idfVal_ge_one docs.length (docFreq docs t0)
      (docFreq_le_length docs t0)
    have hw1 : 1 ≤ tfidfWeight docs d t0 := by
      unfold tfidfWeight
      have hc1 : (1 : ℝ) ≤ (d.count t0 : ℝ) := by exact_mod_cast hcount
      nlinarith
    nlinarith
  · intro y hy
    obtain ⟨t, -, rfl⟩ := List.mem_map.mp hy
    exact mul_self_nonneg _

/-- C6 (amended): if the query equals the `i`-th reference question AND the
normalised query contributes at least one vocabulary term (in particular
it does not normalise to the empty string), then `find_similar_question`
reports a similarity of at least `SIMILARITY_THRESHOLD` (in fact the best
similarity is at least 1 there) and `get_answer` answers directly with
that confidence.  Questions that normalise to nothing break the
unconditional claim (see the counterexample). -/
theorem round_trip_amended (stem : String → String) (stop : List String)
    (pairs : List QAPair) (i : ℕ) (hi : i < pairs.length) (q : String)
    (hq : q = (pairs.get ⟨i, hi⟩).question)
    (hterm : ∃ t ∈ vocabulary (corpusDocs stem stop pairs),
      t ∈ docTerms (_preprocess_text stem stop q).toList) :
    SIMILARITY_THRESHOLD ≤ (find_similar_question stem stop pairs q).2 ∧
    (get_answer stem stop pairs q).confidence
      = (find_similar_question stem stop pairs q).2 ∧
    ∃ qa, (find_similar_question stem stop pairs q).1 = some qa ∧
      (get_answer stem stop pairs q).answer = qa.answer := by
  obtain ⟨t0, ht0v, ht0q⟩ := hterm
  have hlen := similarities_length stem stop pairs q
  have hilen : i < (similarities stem stop pairs q).length := by
    rw [hlen]; exact hi
  have hdlen : i < (corpusDocs stem stop pairs).length := by
    simpa [corpusDocs, processedQuestions] using hi
  have hplen : i < (processedQuestions stem stop pairs).length := by
    simpa [processedQuestions] using hi
  have hdoci : (corpusDocs stem stop pairs)[i]
      = docTerms ((_preprocess_text stem stop q).toList) := by
    simp only [corpusDocs, List.getElem_map, processedQuestions]
    rw [hq, List.get_eq_getElem]
  have hsimi : (similarities stem stop pairs q)[i]
      = cosSim (vocabulary (corpusDocs stem stop pairs))
          (tfidfWeight (corpusDocs stem stop pairs)
            (docTerms (_preprocess_text stem stop q).toList))
          (tfidfWeight (corpusDocs stem stop pairs)
            (docTerms (_preprocess_text stem stop q).toList)) := by
    simp only [similarities, List.getElem_map]
    rw [hdoci]
  have hpos := tfidf_self_dot_pos (corpusDocs stem stop pairs)
    (docTerms (_preprocess_text stem stop q).toList)
    (vocabulary (corpusDocs stem stop pairs)) t0 ht0v ht0q
  have hsim1 : (similarities stem stop pairs q)[i] = 1 := by
    rw [hsimi]
    exact cosSim_self _ _ hpos
  have hbest : 1 ≤ (similarities stem stop pairs q).getD
      (np_argmax (similarities stem stop pairs q)) 0 := by
    have h := np_argmax_ge (similarities stem stop pairs q) i hilen
    rw [List.getD_eq_getElem _ 0 hilen, hsim1] at h
    exact h
  have hfit : fitOk stem stop pairs = true := by
    unfold fitOk
    rw [Bool.and_eq_true, Bool.not_eq_true', Bool.not_eq_true']
    constructor
    · rw [← Bool.not_eq_true, List.isEmpty_iff]
      intro h0
      rw [h0] at hplen
      simp at hplen
    · rw [← Bool.not_eq_true, List.isEmpty_iff]
      intro h0
      rw [h0] at ht0v
      cases ht0v
  have hfind : find_similar_question stem stop pairs q
      = (some (pairs.getD (np_argmax (similarities stem stop pairs q))
          default),
        (similarities stem stop pairs q).getD
          (np_argmax (similarities stem stop pairs q)) 0) := by
    unfold find_similar_question
    rw [if_neg (by simp [hfit])]
    dsimp only
    rw [if_pos (by unfold MIN_RELEVANCE_SCORE; linarith)]
  have hthr : SIMILARITY_THRESHOLD ≤ (similarities stem stop pairs q).getD
      (np_argmax (similarities stem stop pairs q)) 0 := by
    unfold SIMILARITY_THRESHOLD
    linarith
  refine ⟨by rw [hfind]; exact hthr, ?_, ?_⟩
  · unfold get_answer
    rw [hfind]
    dsimp only
    rw [if_pos hthr]
  · refine ⟨pairs.getD (np_argmax (similarities stem stop pairs q)) default,
      by rw [hfind], ?_⟩
    unfold get_answer
    rw [hfind]
    dsimp only
    rw [if_pos hthr]

/-- Witness for the amended C6: a one-question corpus queried with exactly
that question text. -/
theorem round_trip_amended_witness :
    SIMILARITY_THRESHOLD ≤ (find_similar_question (fun s => s) []
      [⟨"программа", "ответ", "general"⟩] "программа").2 :=
  (round_trip_amended (fun s => s) [] [⟨"программа", "ответ", "general"⟩]
    0 (by decide) "программа" rfl
    ⟨"программа".toList, by decide, by decide⟩).1

/-- C6 (counterexample): the corpus question `ab` normalises to the empty
string (its only token has length 2 and is dropped), so `fit_transform`
sees an empty vocabulary, the vectors stay `None`, and querying the exact
question text returns similarity 0.0 and the NO_MATCH response instead of
a similarity above the 0.7 threshold. -/
theorem round_trip_counterexample :
    (⟨"ab", "ответ", "general"⟩ : QAPair).question = "ab" ∧
    (find_similar_question (fun s => s) [] [⟨"ab", "ответ", "general"⟩]
        "ab").2 = 0 ∧
    (0 : ℝ) < SIMILARITY_THRESHOLD ∧
    get_answer (fun s => s) [] [⟨"ab", "ответ", "general"⟩] "ab"
      = noMatchResult := by
  refine ⟨rfl, ?_, by unfold SIMILARITY_THRESHOLD; norm_num, ?_⟩
  · unfold find_similar_question
    rw [if_pos (by decide)]
  · unfold get_answer find_similar_question
    rw [if_pos (by decide)]

/-! ## Claim C7 -/

theorem relatedIndices_pairwise (stem : String → String) (stop : List String)
    (pairs : List QAPair) (q : String) (top_k : ℕ) :
    (relatedIndices stem stop pairs q top_k).Pairwise fun i j =>
      (similarities stem stop pairs q).getD j 0
        < (similarities stem stop pairs q).getD i 0 ∨
      ((similarities stem stop pairs q).getD i 0
        = (similarities stem stop pairs q).getD j 0 ∧ j < i) := by
  have hsorted : (np_argsort (similarities stem stop pairs q)).Pairwise
      (argsortLe (similarities stem stop pairs q)) :=
    List.sorted_insertionSort _ _
  have hnodup : (np_argsort (similarities stem stop pairs q)).Nodup :=
    ((List.perm_insertionSort _ _).nodup_iff).mpr (List.nodup_range _)
  have hand := hsorted.and hnodup
  have hrev : (np_argsort (similarities stem stop pairs q)).reverse.Pairwise
      fun i j => argsortLe (similarities stem stop pairs q) j i ∧ j ≠ i :=
    List.pairwise_reverse.mpr hand
  have himp : (np_argsort (similarities stem stop pairs q)).reverse.Pairwise
      fun i j =>
        (similarities stem stop pairs q).getD j 0
          < (similarities stem stop pairs q).getD i 0 ∨
        ((similarities stem stop pairs q).getD i 0
          = (similarities stem stop pairs q).getD j 0 ∧ j < i) := by
    refine hrev.imp ?_
    rintro i j ⟨hle, hne⟩
    rcases hle with h | ⟨h, hji⟩
    · exact Or.inl h
    · exact Or.inr ⟨h.symm, lt_of_le_of_ne hji hne⟩
  exact List.Pairwise.sublist (List.take_sublist _ _) himp

/-- C7 (amended): `get_related_questions` returns at most `top_k` records,
each with similarity at least `MIN_RELEVANCE` (0.5), sorted descending by
similarity; records with EQUAL similarity however appear in REVERSE corpus
insertion order, because the code reverses a stable ascending argsort
(`np.argsort(similarities)[::-1]`). -/
theorem related_questions_spec (stem : String → String) (stop : List String)
    (pairs : List QAPair) (q : String) (top_k : ℕ) :
    (get_related_questions stem stop pairs q top_k).length ≤ top_k ∧
    (∀ r ∈ get_related_questions stem stop pairs q top_k,
      MIN_RELEVANCE_SCORE ≤ r.similarity) ∧
    (get_related_questions stem stop pairs q top_k).Pairwise
      (fun a b => b.similarity ≤ a.similarity) ∧
    (relatedIndices stem stop pairs q top_k).Pairwise fun i j =>
      (similarities stem stop pairs q).getD j 0
        < (similarities stem stop pairs q).getD i 0 ∨
      ((similarities stem stop pairs q).getD i 0
        = (similarities stem stop pairs q).getD j 0 ∧ j < i) := by
  refine ⟨?_, ?_, ?_, relatedIndices_pairwise stem stop pairs q top_k⟩
  · unfold get_related_questions
    split
    · simp
    · dsimp only
      rw [List.length_map]
      calc ((relatedIndices stem stop pairs q top_k).filter _).length
          ≤ (relatedIndices stem stop pairs q top_k).length :=
            List.length_filter_le _ _
        _ ≤ top_k := by
            unfold relatedIndices
            simp [List.length_take]
  · intro r hr
    unfold get_related_questions at hr
    split at hr
    · cases hr
    · obtain ⟨idx, hidx, rfl⟩ := List.mem_map.mp hr
      have := List.of_mem_filter hidx
      exact of_decide_eq_true this
  · unfold get_related_questions
    split
    · simp
    · dsimp only
      rw [List.pairwise_map]
      have hp := List.Pairwise.filter
        (fun i => decide (MIN_RELEVANCE_SCORE
          ≤ (similarities stem stop pairs q).getD i 0))
        (relatedIndices_pairwise stem stop pairs q top_k)
      refine hp.imp ?_
      intro i j hij
      rcases hij with h | ⟨h, -⟩
      · exact le_of_lt h
      · exact le_of_eq h.symm

/-- Witness for the amended C7 at a concrete corpus. -/
theorem related_questions_spec_witness :
    (get_related_questions (fun s => s) []
      [⟨"программа", "ответ", "general"⟩] "программа" 3).length ≤ 3 :=
  (related_questions_spec (fun s => s) []
    [⟨"программа", "ответ", "general"⟩] "программа" 3).1

/-- C7 (counterexample): two corpus records with identical questions
(`университет`, answers `a` then `b`) tie with similarity 1 on the query
`университет`; the result lists the SECOND record first — reverse
insertion order — because `np.argsort(...)[::-1]` reverses the stable
ascending order of tied indices.  The claim predicts `["a", "b"]`. -/
theorem related_questions_tie_order_counterexample :
    (get_related_questions (fun s => s) []
        [⟨"университет", "a", "g"⟩, ⟨"университет", "b", "g"⟩]
        "университет" 3).map (fun r => r.answer) = ["b", "a"] ∧
    (get_related_questions (fun s => s) []
        [⟨"университет", "a", "g"⟩, ⟨"университет", "b", "g"⟩]
        "университет" 3).map (fun r => r.similarity) = [1, 1] := by
  have hdocs : corpusDocs (fun s => s) []
      [⟨"университет", "a", "g"⟩, ⟨"университет", "b", "g"⟩]
      = [["университет".toList], ["университет".toList]] := by decide
  have hvocab : vocabulary
      [[("университет".toList : List Char)], ["университет".toList]]
      = ["университет".toList] := by decide
  have hqd : docTerms (_preprocess_text (fun s => s) []
      "университет").toList = ["университет".toList] := by decide
  have hidf : idfVal 2 2 = 1 := by
    unfold idfVal
    rw [show (1 + ((2 : ℕ) : ℝ)) / (1 + ((2 : ℕ) : ℝ)) = 1 by norm_num,
      Real.log_one]
    norm_num
  have hc : (([("университет".toList : List Char)]).count
      "университет".toList) = 1 := by decide
  have hdf : docFreq
      [[("университет".toList : List Char)], ["университет".toList]]
      "университет".toList = 2 := by decide
  have hw : tfidfWeight
      [[("университет".toList : List Char)], ["университет".toList]]
      ["университет".toList] "университет".toList = 1 := by
    unfold tfidfWeight
    rw [hc, hdf, show ([[("университет".toList : List Char)],
      ["университет".toList]]).length = 2 from rfl, hidf]
    norm_num
  have hdot : dotProd ["университет".toList]
      (tfidfWeight [[("университет".toList : List Char)],
        ["университет".toList]] ["университет".toList])
      (tfidfWeight [[("университет".toList : List Char)],
        ["университет".toList]] ["университет".toList]) = 1 := by
    unfold dotProd
    simp only [List.map_cons, List.map_nil, List.sum_cons, List.sum_nil]
    rw [hw]
    norm_num
  have hcos : cosSim ["университет".toList]
      (tfidfWeight [[("университет".toList : List Char)],
        ["университет".toList]] ["университет".toList])
      (tfidfWeight [[("университет".toList : List Char)],
        ["университет".toList]] ["университет".toList]) = 1 := by
    unfold cosSim
    rw [hdot, Real.sqrt_one]
    norm_num
  have hsims : similarities (fun s => s) []
      [⟨"университет", "a", "g"⟩, ⟨"университет", "b", "g"⟩]
      "университет" = [1, 1] := by
    simp only [similarities]
    rw [hdocs, hqd, hvocab]
    simp only [List.map_cons, List.map_nil]
    rw [hcos]
  have hr01 : argsortLe [(1 : ℝ), 1] 0 1 := Or.inr ⟨rfl, by norm_num⟩
  have hargsort : np_argsort [(1 : ℝ), 1] = [0, 1] := by
    unfold np_argsort
    rw [show ([(1 : ℝ), 1]).length = 2 from rfl,
      show List.range 2 = [0, 1] from rfl]
    simp only [List.insertionSort, List.orderedInsert]
    rw [if_pos hr01]
  have hrelated : relatedIndices (fun s => s) []
      [⟨"университет", "a", "g"⟩, ⟨"университет", "b", "g"⟩]
      "университет" 3 = [1, 0] := by
    unfold relatedIndices
    rw [hsims, hargsort]
    rfl
  have hfit : fitOk (fun s => s) []
      [⟨"университет", "a", "g"⟩, ⟨"университет", "b", "g"⟩] = true := by
    decide
  have hd : decide (MIN_RELEVANCE_SCORE ≤ (1 : ℝ)) = true :=
    decide_eq_true (by unfold MIN_RELEVANCE_SCORE; norm_num)
  constructor <;>
  · unfold get_related_questions
    rw [if_neg (by simp [hfit])]
    dsimp only
    rw [hrelated, hsims]
    simp only [List.filter_cons, List.filter_nil, List.getD_cons_succ,
      List.getD_cons_zero, hd, if_true]
    rfl

end ITMORec
